import Mathlib

set_option maxHeartbeats 1000000

namespace Inwire

/-- Lookup in an association list with string keys, mirroring Map.get. -/
def alookup {β : Type} (k : String) : List (String × β) → Option β
  | [] => none
  | (a, b) :: t => if a = k then some b else alookup k t

/-- The keys of an association list, in order. -/
def akeys {β : Type} (l : List (String × β)) : List String :=
  l.map (·.1)

/-- Modelled from the spec: the initialization-hook descriptor of a resolved
instance (section 6, consumed capabilities; the resolver source file under
src/infrastructure is not in the provided sources). The field isAsync states
whether the hook returns an awaitable, fails states whether its outcome is a
failure, and errMsg is the failure message. -/
structure InitSpec where
  isAsync : Bool
  fails : Bool
  errMsg : String
deriving DecidableEq

/-- Modelled from the spec: the duck-typed capabilities of a resolved
instance. onInitSpec is the optional initialization hook; onDestroySpec is
the optional teardown hook, where some b means the hook exists and b states
whether it fails. -/
structure InstanceSpec where
  onInitSpec : Option InitSpec
  onDestroySpec : Option Bool
deriving DecidableEq

/-- A resolved instance: a fresh identity stamp plus its capabilities. Two
instances produced by separate factory invocations carry distinct stamps. -/
structure Instance where
  id : Nat
  spec : InstanceSpec
deriving DecidableEq

/-- Modelled from the spec: the observable outcome of a factory body after
its dependency reads: produce an instance, raise a plain error, or return no
value. -/
inductive FBehavior where
  | make (spec : InstanceSpec)
  | throwErr
  | undef
deriving DecidableEq

/-- Modelled from the spec (section 3, Factory): a factory reads a fixed
ordered list of keys through the tracking accessor and then either produces a
value, throws, or returns nothing; it may be tagged transient. -/
structure Factory where
  deps : List String
  behavior : FBehavior
  transient : Bool
deriving DecidableEq

/-- Modelled from the spec (section 7): the error taxonomy of the resolver.
fuelOut is a model-only marker for exhausted recursion fuel; the fuel used by
resolveTop is large enough that it never fires on reachable inputs. -/
inductive RErr where
  | providerNotFound (key : String)
  | circularDependency (chain : List String)
  | undefinedReturn (key : String)
  | factoryError (key : String) (chain : List String)
  | fuelOut
deriving DecidableEq

/-- Modelled from the spec (section 3, Warnings): diagnostic records with the
offending keys. -/
inductive Warning where
  | scopeMismatch (key dep : String)
  | asyncInitError (key : String) (msg : String)
deriving DecidableEq

/-- Observable actions of the container, used to state ordering properties:
a factory invocation, the start and completion of an initialization hook,
and a teardown-hook invocation. -/
inductive Event where
  | factoryCall (k : String)
  | initStart (k : String)
  | initEnd (k : String)
  | destroyCall (k : String)
deriving DecidableEq

/-- Modelled from the spec (sections 3 and 4.3): the full private state of
one Resolver, whose source file is not in the provided sources. The cache is
an insertion-ordered association list; resolving is the CycleDetector set;
events is the observable trace. -/
structure St where
  factories : List (String × Factory)
  cache : List (String × Instance)
  resolving : List String
  depGraph : List (String × List String)
  initState : List String
  warnings : List Warning
  deferInit : Bool
  fresh : Nat
  events : List Event
deriving DecidableEq

/-- Decidable equality for Except results, so that concrete runs of the
model can be checked by evaluation. -/
instance {e a : Type} [DecidableEq e] [DecidableEq a] : DecidableEq (Except e a) :=
  fun x y =>
    match x, y with
    | .error v, .error w =>
      if h : v = w then isTrue (by rw [h]) else isFalse (by simp [h])
    | .ok v, .ok w =>
      if h : v = w then isTrue (by rw [h]) else isFalse (by simp [h])
    | .error _, .ok _ => isFalse (by simp)
    | .ok _, .error _ => isFalse (by simp)

/-- Modelled from the spec (section 4.1): mark a key active in the
CycleDetector; the factory invocation starts here, so the trace records it. -/
def enter (k : String) (s : St) : St :=
  { s with resolving := k :: s.resolving, events := s.events ++ [.factoryCall k] }

/-- Modelled from the spec (section 4.1): unmark a key, executed on every
exit path of resolve. -/
def leave (k : String) (s : St) : St :=
  { s with resolving := s.resolving.erase k }

/-- Modelled from the spec (section 4.3, step 4): the scope-mismatch
warnings appended when a non-transient key depends on transient factories. -/
def scopeWarnings (k : String) (deps : List String)
    (facs : List (String × Factory)) : List Warning :=
  deps.filterMap (fun d =>
    match alookup d facs with
    | some df => if df.transient then some (.scopeMismatch k d) else none
    | none => none)

/-- Modelled from the spec (section 4.3, step 4): fire the initialization
hook of a freshly produced instance unless deferred-init mode is on or the
key is already initialized. An awaitable failure is recorded as an async-init
warning and never propagated; the spec gives no failure path for a
synchronous hook on this route, so none is modelled. -/
def inlineInit (k : String) (inst : Instance) (s : St) : St :=
  if s.deferInit then s
  else if k ∈ s.initState then s
  else
    match inst.spec.onInitSpec with
    | none => s
    | some isp =>
      let s1 := { s with initState := s.initState ++ [k],
                         events := s.events ++ [.initStart k, .initEnd k] }
      if isp.isAsync && isp.fails then
        { s1 with warnings := s1.warnings ++ [.asyncInitError k isp.errMsg] }
      else s1

/-- Modelled from the spec (section 4.3, step 4): the tail of a resolution
after all dependency reads succeeded: dispatch on the factory outcome, record
the dependency-graph entry, append scope warnings and cache the instance when
non-transient, then fire the inline initialization hook. -/
def finish (k : String) (chain : List String) (fac : Factory) (s : St) :
    Except RErr Instance × St :=
  match fac.behavior with
  | .throwErr => (.error (.factoryError k (chain ++ [k])), s)
  | .undef => (.error (.undefinedReturn k), s)
  | .make ispec =>
    let inst : Instance := ⟨s.fresh, ispec⟩
    let s1 := { s with fresh := s.fresh + 1,
                       depGraph := s.depGraph.filter (fun p => decide (p.1 ≠ k))
                                     ++ [(k, fac.deps)] }
    let s2 :=
      if fac.transient then s1
      else { s1 with warnings := s1.warnings ++ scopeWarnings k fac.deps s1.factories,
                     cache := s1.cache ++ [(k, inst)] }
    (.ok inst, inlineInit k inst s2)

/-- One step of the ordered dependency-read loop: skip once a failure has
occurred, otherwise resolve the next key with the given resolver and thread
the state. -/
def depFold (rf : String → List String → St → Except RErr Instance × St)
    (chain : List String) (acc : Except RErr Unit × St) (d : String) :
    Except RErr Unit × St :=
  match acc.1 with
  | .error _ => acc
  | .ok _ =>
    match rf d chain acc.2 with
    | (.ok _, s1) => (.ok (), s1)
    | (.error e, s1) => (.error e, s1)

/-- Modelled from the spec (section 4.3, resolve): cache hit for cached
non-transient keys, provider-not-found when unregistered (no parent chain is
modelled, as no claim involves one), circular-dependency error carrying the
chain when the key is already active, and otherwise enter, resolve the
dependency reads in order, finish, and unconditionally unmark the key. -/
def resolveFuel : Nat → String → List String → St → Except RErr Instance × St
  | 0, _, _, s => (.error .fuelOut, s)
  | f+1, k, chain, s =>
    match alookup k s.factories with
    | none => (.error (.providerNotFound k), s)
    | some fac =>
      match (if fac.transient then none else alookup k s.cache) with
      | some v => (.ok v, s)
      | none =>
        if k ∈ s.resolving then
          (.error (.circularDependency (chain ++ [k])), s)
        else
          let p := fac.deps.foldl (depFold (resolveFuel f) (chain ++ [k]))
            (.ok (), enter k s)
          match p.1 with
          | .error e => (.error e, leave k p.2)
          | .ok _ =>
            let q := finish k chain fac p.2
            (q.1, leave k q.2)

/-- Modelled from the spec (section 4.2): resolve a list of keys in order,
stopping at the first failure, as the tracking accessor does for the ordered
dependency reads of a factory. -/
def resolveMany (f : Nat) (l : List String) (chain : List String) (s : St) :
    Except RErr Unit × St :=
  l.foldl (depFold (resolveFuel f) chain) (.ok (), s)

/-- Modelled from the spec: a top-level resolve call with an empty chain and
fuel that the cycle detector keeps from running out. -/
def resolveTop (k : String) (s : St) : Except RErr Instance × St :=
  resolveFuel (s.factories.length + 2) k [] s

/-- Modelled from the spec (section 4.3): snapshot of the warnings. -/
def getWarnings (s : St) : List Warning :=
  s.warnings

/-- Modelled from the spec (section 4.3, callOnInit, start half): mark the
key initialized and start its hook if the key is cached and not yet
initialized; returns the started hook so the caller can join it later. The
preloader starts every member of a level before joining any of them. -/
def initBegin (k : String) (s : St) : Option InitSpec × St :=
  if k ∈ s.initState then (none, s)
  else
    match alookup k s.cache with
    | none => (none, s)
    | some inst =>
      let s1 := { s with initState := s.initState ++ [k] }
      match inst.spec.onInitSpec with
      | none => (none, s1)
      | some isp => (some isp, { s1 with events := s1.events ++ [.initStart k] })

/-- Modelled from the spec (section 4.4, step 7): start the hooks of one
topological level in member order, collecting the started hooks. -/
def levelStart : List String → St → List (String × InitSpec) × St
  | [], s => ([], s)
  | k :: t, s =>
    let p := initBegin k s
    let r := levelStart t p.2
    (match p.1 with | some isp => (k, isp) :: r.1 | none => r.1, r.2)

/-- Modelled from the spec (section 4.4, step 7): await every started hook
of a level, collecting each failure as a pair of key and message without
halting the others. -/
def levelJoin : List (String × InitSpec) → St → List (String × String) × St
  | [], s => ([], s)
  | (k, isp) :: t, s =>
    let s1 := { s with events := s.events ++ [.initEnd k] }
    let r := levelJoin t s1
    ((if isp.fails then [(k, isp.errMsg)] else []) ++ r.1, r.2)

/-- Modelled from the spec (section 4.4, step 7): process the topological
levels strictly in ascending order, collecting every failure. -/
def processLevels : List (List String) → St → List (String × String) × St
  | [], s => ([], s)
  | lvl :: rest, s =>
    let a := levelStart lvl s
    let b := levelJoin a.1 a.2
    let c := processLevels rest b.2
    (b.1 ++ c.1, c.2)

/-- Modelled from the spec (section 4.4, step 5): depth-first transitive
closure of the roots over the recorded dependency graph, recording each
visited key once. Returns the visited keys and the unprocessed stack, which
is empty whenever the generous fuel of closureRun does not run out. -/
def closureGo : Nat → List (String × List String) → List String → List String →
    List String × List String
  | 0, _, stack, acc => (acc, stack)
  | _+1, _, [], acc => (acc, [])
  | f+1, g, k :: rest, acc =>
    if k ∈ acc then closureGo f g rest acc
    else closureGo f g ((alookup k g).getD [] ++ rest) (acc ++ [k])

/-- Fuel bound for the closure walk: one unit per root and per recorded
edge, plus slack; each step of closureGo consumes at least one unit of the
corresponding potential. -/
def closureFuel (g : List (String × List String)) (roots : List String) : Nat :=
  roots.length + (g.map (fun p => p.2.length + 1)).sum + 1

/-- Modelled from the spec (section 4.4, step 5): run the closure walk from
the requested keys. -/
def closureRun (g : List (String × List String)) (roots : List String) :
    List String × List String :=
  closureGo (closureFuel g roots) g roots []

/-- Modelled from the spec (section 4.4, step 6): the keys of the closure
whose in-closure dependencies are all already placed and which are not yet
placed themselves; these form the next topological level. -/
def nextLevel (g : List (String × List String)) (cl placed : List String) :
    List String :=
  cl.filter (fun k => decide (k ∉ placed ∧
    ∀ d ∈ (alookup k g).getD [], d ∈ cl → d ∈ placed))

/-- Modelled from the spec (section 4.4, step 6): partition the closure into
topological levels by repeatedly taking the keys whose in-closure
dependencies are all placed, stopping when no further key can be placed. -/
def levelsGo : Nat → List (String × List String) → List String → List String →
    List (List String)
  | 0, _, _, _ => []
  | f+1, g, cl, placed =>
    let nxt := nextLevel g cl placed
    if nxt.isEmpty then []
    else nxt :: levelsGo f g cl (placed ++ nxt)

/-- Modelled from the spec (section 4.4, step 6): the topological levels of
a closure; one round per closure key always suffices because every round
places at least one new key. -/
def levelsOf (g : List (String × List String)) (cl : List String) :
    List (List String) :=
  levelsGo (cl.length + 1) g cl []

/-- Modelled from the spec (sections 4.4 and 7): the failures preload can
throw: a rethrown synchronous resolution failure, a single initialization
failure rethrown directly, an aggregate of two or more failures, and the
stuck-keys error of step 9. -/
inductive PErr where
  | resolveFailed (e : RErr)
  | initFailed (key msg : String)
  | aggregate (errs : List (String × String))
  | stuck (keys : List String)
deriving DecidableEq

/-- Modelled from the spec (section 4.4, steps 8 and 9): zero failures
return normally unless stuck keys remain; exactly one failure is rethrown
directly; two or more are wrapped in a single aggregate. -/
def initOutcome (errs : List (String × String)) (stuckKeys : List String) :
    Except PErr Unit :=
  match errs with
  | [] => if stuckKeys.isEmpty then .ok () else .error (.stuck stuckKeys)
  | [e] => .error (.initFailed e.1 e.2)
  | es => .error (.aggregate es)

/-- Modelled from the spec (section 4.4): the keys preload works on: the
requested ones, or all locally registered keys when none are given. -/
def preloadKeys (keys : Option (List String)) (s : St) : List String :=
  keys.getD (s.factories.map (·.1))

/-- Modelled from the spec (section 4.4, steps 5 to 9): after the resolve
phase, compute the closure of the requested keys over the recorded graph,
partition it into topological levels, process the levels collecting every
failure, and report the outcome, naming keys the level partition could not
place. Exhaustion of the generous closure fuel is folded into the stuck-keys
error. -/
def preloadInitPhase (keyList : List String) (s3 : St) : Except PErr Unit × St :=
  let cr := closureRun s3.depGraph keyList
  let lv := levelsOf s3.depGraph cr.1
  let pr := processLevels lv s3
  (initOutcome pr.1 (cr.1.filter (fun k => decide (k ∉ lv.flatten)) ++ cr.2), pr.2)

/-- Modelled from the spec (section 4.4, preload): snapshot the cache keys,
turn deferred-init mode on, resolve the requested keys in order; on a
synchronous failure roll the cache back to the snapshot, restore
deferred-init mode and rethrow; on success restore deferred-init mode and
run the initialization phase. -/
def preload (keys : Option (List String)) (s : St) : Except PErr Unit × St :=
  let ks := preloadKeys keys s
  let snapshot := s.cache.map (·.1)
  let p := resolveMany (s.factories.length + 2) ks [] { s with deferInit := true }
  match p.1 with
  | .error e =>
    (.error (.resolveFailed e),
     { p.2 with cache := p.2.cache.filter (fun q => decide (q.1 ∈ snapshot)),
                deferInit := false })
  | .ok _ => preloadInitPhase ks { p.2 with deferInit := false }

/-- Modelled from the spec (sections 4.5 and 7): the failures dispose can
throw, identified by the key whose teardown hook failed: one failure
rethrown directly or an aggregate of two or more. -/
inductive DErr where
  | single (key : String)
  | aggregate (keys : List String)
deriving DecidableEq

/-- Modelled from the spec (section 4.5): run the teardown hooks over the
given cache entries in the given order, collecting the keys of the failing
hooks and the trace of the invoked hooks without halting on failure. -/
def runDestroy : List (String × Instance) → List String × List Event
  | [] => ([], [])
  | (k, v) :: t =>
    let rest := runDestroy t
    match v.spec.onDestroySpec with
    | none => rest
    | some fails => ((if fails then [k] else []) ++ rest.1, .destroyCall k :: rest.2)

/-- Modelled from the spec (section 4.5, dispose): invoke the teardown hooks
in exact reverse cache-insertion order, then clear the cache, the init
state, the dependency graph and the warnings regardless of failures; zero
failures return normally, one is rethrown directly, two or more are wrapped
in a single aggregate. -/
def dispose (s : St) : Except DErr Unit × St :=
  let r := runDestroy s.cache.reverse
  let s1 := { s with cache := [], initState := [], depGraph := [], warnings := [],
                     events := s.events ++ r.2 }
  (match r.1 with
   | [] => .ok ()
   | [k] => .error (.single k)
   | ks => .error (.aggregate ks), s1)

/-- The keys a warning references, used by the per-key warning pruning of
reset. -/
def warnKeys : Warning → List String
  | .scopeMismatch k d => [k, d]
  | .asyncInitError k _ => [k]

/-- Modelled from the spec (sections 3 and 4.3, reset): drop the cache
entries, init flags and dependency-graph entries of the given keys and prune
the warnings that reference them, returning those keys to Registered. -/
def reset (ks : List String) (s : St) : St :=
  { s with
    cache := s.cache.filter (fun p => decide (p.1 ∉ ks)),
    initState := s.initState.filter (fun k => decide (k ∉ ks)),
    depGraph := s.depGraph.filter (fun p => decide (p.1 ∉ ks)),
    warnings := s.warnings.filter (fun w => decide (∀ x ∈ warnKeys w, x ∉ ks)) }

/-- Reachability over the recorded dependency graph: a key is reachable when
it is requested or is a recorded dependency of a reachable key. This is the
mathematical transitive closure that the depth-first walk of preload
computes. -/
inductive Reaches (g : List (String × List String)) (roots : List String) :
    String → Prop
  | root {k : String} : k ∈ roots → Reaches g roots k
  | step {j k : String} : Reaches g roots j → k ∈ (alookup j g).getD [] →
      Reaches g roots k

/-- From src/infrastructure/transient.ts: a JavaScript function value as far
as transient.ts observes it: a callable body plus the optional
TRANSIENT_MARKER property, modelled as an optional Boolean since the marker
is only ever written and compared against true. -/
structure JSFunction (α β : Type) where
  call : α → β
  transientMarker : Option Bool

/-- From src/infrastructure/transient.ts: a JavaScript value is either a
function or some non-function value; isTransient distinguishes only these
two shapes. -/
inductive JSValue (α β : Type) where
  | fn (f : JSFunction α β)
  | other

/-- From src/infrastructure/transient.ts, transient: wrap a factory in a
forwarding function and set its TRANSIENT_MARKER property to true. -/
def transient {α β : Type} (f : JSFunction α β) : JSFunction α β :=
  { call := fun c => f.call c, transientMarker := some true }

/-- From src/infrastructure/transient.ts, isTransient: true exactly for a
function value carrying the TRANSIENT_MARKER property with value true. -/
def isTransient {α β : Type} : JSValue α β → Bool
  | .fn g => decide (g.transientMarker = some true)
  | .other => false

/-- The state-change discipline every resolve call obeys: the registry, the
cycle-detector set and the deferred-init flag are restored; the identity
counter grows; the cache, the trace, the warnings and the init flags only
grow by appending; newly cached keys were neither cached nor mid-resolution
before; newly initialized keys were not mid-resolution; and under
deferred-init mode no init flag is touched. -/
def Frame (s t : St) : Prop :=
  t.factories = s.factories ∧
  t.resolving = s.resolving ∧
  t.deferInit = s.deferInit ∧
  s.fresh ≤ t.fresh ∧
  (∃ d, t.cache = s.cache ++ d ∧ ∀ p ∈ d, p.1 ∉ akeys s.cache ∧ p.1 ∉ s.resolving ∧
    p.2.id < t.fresh ∧
    ∀ fc, alookup p.1 s.factories = some fc → fc.transient = false) ∧
  (∃ ev, t.events = s.events ++ ev) ∧
  (∃ w, t.warnings = s.warnings ++ w) ∧
  (∃ i, t.initState = s.initState ++ i ∧ ∀ x ∈ i, x ∉ s.resolving) ∧
  (s.deferInit = true → t.initState = s.initState)

/-- All cache entries carry identity stamps below the freshness counter;
this holds in every reachable state and is preserved by resolution. -/
def WfFresh (s : St) : Prop :=
  ∀ p ∈ s.cache, p.2.id < s.fresh

/-- The cache never holds an entry whose key is registered with a
transient-marked factory. -/
def TransFree (s : St) : Prop :=
  ∀ p ∈ s.cache, ∀ fc, alookup p.1 s.factories = some fc → fc.transient = false

/-- A plain instance with no lifecycle hooks, for concrete runs. -/
def exPlain : InstanceSpec := ⟨none, none⟩

/-- An instance with a synchronous initialization hook, for concrete runs. -/
def exInit : InstanceSpec := ⟨some ⟨false, false, ""⟩, none⟩

/-- An instance whose asynchronous initialization hook rejects, for concrete
runs. -/
def exAsyncFail : InstanceSpec := ⟨some ⟨true, true, "init failed!"⟩, none⟩

/-- An instance with a succeeding teardown hook, for concrete runs. -/
def exDestroy : InstanceSpec := ⟨none, some false⟩

/-- An instance whose teardown hook throws, for concrete runs. -/
def exDestroyFail : InstanceSpec := ⟨none, some true⟩

/-- A fresh container state over the given registry, as build produces it. -/
def exSt (facs : List (String × Factory)) : St :=
  ⟨facs, [], [], [], [], [], false, 0, []⟩

/-- The state-change discipline of the explicit initialization machinery of
preload: only the init flags and the trace grow; every other field is
untouched. -/
def InitFrame (s t : St) : Prop :=
  t.factories = s.factories ∧ t.cache = s.cache ∧ t.resolving = s.resolving ∧
  t.deferInit = s.deferInit ∧ t.depGraph = s.depGraph ∧ t.fresh = s.fresh ∧
  t.warnings = s.warnings ∧ (∃ i, t.initState = s.initState ++ i) ∧
  (∃ ev, t.events = s.events ++ ev)

/-- An instance with both a synchronous initialization hook and a
succeeding teardown hook, for concrete runs. -/
def exFull : InstanceSpec := ⟨some ⟨false, false, ""⟩, some false⟩

/-- A registry with a two-key dependency cycle and an unrelated safe key,
mirroring the cycle-safety scenario of the spec. -/
def exC1Reg : List (String × Factory) :=
  [("a", ⟨["b"], .make exPlain, false⟩),
   ("b", ⟨["a"], .make exPlain, false⟩),
   ("safe", ⟨[], .make exPlain, false⟩)]

/-- A three-key registry whose middle teardown hook throws, mirroring the
dispose scenario of the spec. -/
def exC4Reg : List (String × Factory) :=
  [("first", ⟨[], .make exFull, false⟩),
   ("second", ⟨[], .make exDestroyFail, false⟩),
   ("third", ⟨[], .make exDestroy, false⟩)]

/-- The state after resolving first, second and third in that order. -/
def exC4 : St :=
  (resolveTop "third" (resolveTop "second" (resolveTop "first" (exSt exC4Reg)).2).2).2

/-- Static reachability through transient intermediaries: z is a direct
dependency of y, or is reachable from a transient direct dependency of y.
Every non-transient key a resolution of y touches below the first
non-transient frontier is of this form. -/
inductive StatReachT (facs : List (String × Factory)) : String → String → Prop where
  | base {y z : String} {fac : Factory} :
      alookup y facs = some fac → z ∈ fac.deps → StatReachT facs y z
  | thru {y w z : String} {fac wfac : Factory} :
      alookup y facs = some fac → w ∈ fac.deps → alookup w facs = some wfac →
      wfac.transient = true → StatReachT facs w z → StatReachT facs y z

/-- A key is coherently supported in a state when every non-transient key it
statically reaches through transient intermediaries is cached. Every key the
resolver itself caches is coherently supported. -/
def CohAt (s : St) (x : String) : Prop :=
  ∀ z zfac, StatReachT s.factories x z → alookup z s.factories = some zfac →
    zfac.transient = false → z ∈ akeys s.cache

/-- The state preload hands to its initialization phase after a successful
resolve phase: the resolve-phase result with deferred-init mode restored. -/
def preloadMid (keys : Option (List String)) (s : St) : St :=
  { (resolveMany (s.factories.length + 2) (preloadKeys keys s) []
      { s with deferInit := true }).2 with deferInit := false }

/-- The set of keys the closure walk of preload visits: the requested keys
and, transitively, their recorded dependencies. -/
def preloadClosure (keys : Option (List String)) (s : St) : List String :=
  (closureRun (preloadMid keys s).depGraph (preloadKeys keys s)).1

/-- The topological levels preload partitions its closure into. -/
def preloadLevels (keys : Option (List String)) (s : St) : List (List String) :=
  levelsOf (preloadMid keys s).depGraph (preloadClosure keys s)

/-- Strict temporal ordering on a trace: every occurrence of the first event
lies before every occurrence of the second, witnessed by a split of the
trace with no second-event occurrence on the left and no first-event
occurrence on the right. -/
def allBefore (tr : List Event) (a b : Event) : Prop :=
  ∃ t1 t2, tr = t1 ++ t2 ∧ b ∉ t1 ∧ a ∉ t2

/-- The trace segment the level machinery emits for started-key lists, one
block per level: all initStart events of a level, then all its initEnd
events. -/
def blockEvents (S : List (List String)) : List Event :=
  (S.map (fun l => l.map Event.initStart ++ l.map Event.initEnd)).flatten

/-- A two-key registry where app depends on db and both carry
initialization hooks, mirroring the preload topological-order scenario of
the spec. -/
def exC3Reg : List (String × Factory) :=
  [("app", ⟨["db"], .make exInit, false⟩),
   ("db", ⟨[], .make exInit, false⟩)]

theorem alookup_eq_none {β : Type} {k : String} {l : List (String × β)} :
    alookup k l = none ↔ k ∉ akeys l := by
  induction l with
  | nil => simp [alookup, akeys]
  | cons p t ih =>
    obtain ⟨a, b⟩ := p
    by_cases h : a = k <;> simp [alookup, akeys, h, ih, Ne.symm]

theorem alookup_isSome_iff {β : Type} {k : String} {l : List (String × β)} :
    (alookup k l).isSome ↔ k ∈ akeys l := by
  rcases h : alookup k l with _ | v
  · simp [alookup_eq_none.mp h]
  · simp only [Option.isSome_some, true_iff]
    by_contra hk
    rw [← alookup_eq_none] at hk
    simp [h] at hk

theorem alookup_append_left {β : Type} {k : String} {l1 l2 : List (String × β)}
    {v : β} (h : alookup k l1 = some v) : alookup k (l1 ++ l2) = some v := by
  induction l1 with
  | nil => simp [alookup] at h
  | cons p t ih =>
    obtain ⟨a, b⟩ := p
    by_cases ha : a = k <;> simp_all [alookup]

theorem alookup_append_right {β : Type} {k : String} {l1 l2 : List (String × β)}
    (h : k ∉ akeys l1) : alookup k (l1 ++ l2) = alookup k l2 := by
  induction l1 with
  | nil => simp
  | cons p t ih =>
    obtain ⟨a, b⟩ := p
    simp only [akeys, List.map_cons, List.mem_cons, not_or] at h
    simp [alookup, Ne.symm h.1, ih (by simpa [akeys] using h.2)]

theorem akeys_append {β : Type} (l1 l2 : List (String × β)) :
    akeys (l1 ++ l2) = akeys l1 ++ akeys l2 := by
  simp [akeys]

theorem frame_refl (s : St) : Frame s s := by
  refine ⟨rfl, rfl, rfl, le_refl _, ⟨[], by simp⟩, ⟨[], by simp⟩, ⟨[], by simp⟩,
    ⟨[], by simp⟩, fun _ => rfl⟩

theorem frame_trans {s t u : St} (h1 : Frame s t) (h2 : Frame t u) : Frame s u := by
  obtain ⟨f1, r1, d1, n1, ⟨c1, hc1, hc1k⟩, ⟨e1, he1⟩, ⟨w1, hw1⟩, ⟨i1, hi1, hi1k⟩, di1⟩ := h1
  obtain ⟨f2, r2, d2, n2, ⟨c2, hc2, hc2k⟩, ⟨e2, he2⟩, ⟨w2, hw2⟩, ⟨i2, hi2, hi2k⟩, di2⟩ := h2
  refine ⟨f2.trans f1, r2.trans r1, d2.trans d1, n1.trans n2,
    ⟨c1 ++ c2, by rw [hc2, hc1, List.append_assoc], ?_⟩,
    ⟨e1 ++ e2, by rw [he2, he1, List.append_assoc]⟩,
    ⟨w1 ++ w2, by rw [hw2, hw1, List.append_assoc]⟩,
    ⟨i1 ++ i2, by rw [hi2, hi1, List.append_assoc], ?_⟩, ?_⟩
  · intro p hp
    rcases List.mem_append.mp hp with hp | hp
    · have := hc1k p hp
      exact ⟨this.1, this.2.1, lt_of_lt_of_le this.2.2.1 n2, this.2.2.2⟩
    · have := hc2k p hp
      rw [hc1, akeys_append, r1, f1] at this
      exact ⟨fun hm => this.1 (List.mem_append.mpr (Or.inl hm)), this.2.1, this.2.2.1,
        this.2.2.2⟩
  · intro x hx
    rcases List.mem_append.mp hx with hx | hx
    · exact hi1k x hx
    · have := hi2k x hx
      rwa [r1] at this
  · intro hd
    rw [di2 (d1.trans hd), di1 hd]

theorem finish_state (k : String) (chain : List String) (fac : Factory) (s : St) :
    (finish k chain fac s).2.factories = s.factories ∧
    (finish k chain fac s).2.resolving = s.resolving ∧
    (finish k chain fac s).2.deferInit = s.deferInit ∧
    s.fresh ≤ (finish k chain fac s).2.fresh ∧
    ((finish k chain fac s).2.cache = s.cache ∨
      ∃ v, (finish k chain fac s).2.cache = s.cache ++ [(k, v)] ∧
        v.id < (finish k chain fac s).2.fresh) ∧
    (∃ ev, (finish k chain fac s).2.events = s.events ++ ev) ∧
    (∃ w, (finish k chain fac s).2.warnings = s.warnings ++ w) ∧
    ((finish k chain fac s).2.initState = s.initState ∨
      (finish k chain fac s).2.initState = s.initState ++ [k]) ∧
    (s.deferInit = true → (finish k chain fac s).2.initState = s.initState) ∧
    (fac.transient = true → (finish k chain fac s).2.cache = s.cache) := by
  unfold finish inlineInit
  rcases fac.behavior with ispec | _ | _
  · by_cases hdef : s.deferInit <;>
      by_cases hini : k ∈ s.initState <;>
      rcases hspec : ispec.onInitSpec with _ | isp <;>
      by_cases htr : fac.transient <;>
      simp [hdef, hini, hspec, htr] <;>
      try (split <;> simp)
  · simp
  · simp

theorem frame_enter_leave {k : String} {s t : St} (hk : k ∉ s.resolving)
    (h : Frame (enter k s) t) : Frame s (leave k t) := by
  obtain ⟨hf, hr, hd, hn, ⟨d, hc, hck⟩, ⟨ev, he⟩, ⟨w, hw⟩, ⟨i, hi, hik⟩, hdi⟩ := h
  simp only [enter] at hf hr hd hn hc hck he hw hi hik hdi
  refine ⟨hf, ?_, hd, hn, ⟨d, hc, ?_⟩, ⟨.factoryCall k :: ev, by
      rw [leave]; simp only; rw [he]; simp⟩, ⟨w, hw⟩, ⟨i, hi, ?_⟩, hdi⟩
  · show t.resolving.erase k = s.resolving
    rw [hr, List.erase_cons_head]
  · intro p hp
    have := hck p hp
    exact ⟨this.1, fun hm => this.2.1 (List.mem_cons_of_mem _ hm), this.2.2.1, this.2.2.2⟩
  · intro x hx
    exact fun hm => hik x hx (List.mem_cons_of_mem _ hm)

theorem frame_enter_finish_leave {k : String} {chain : List String} {fac : Factory}
    {s s2 : St} (hk : k ∉ s.resolving)
    (hfacL : alookup k s.factories = some fac)
    (hkc : fac.transient = false → alookup k s.cache = none)
    (h1 : Frame (enter k s) s2) :
    Frame s (leave k (finish k chain fac s2).2) := by
  obtain ⟨hf, hr, hd, hn, ⟨d, hc, hck⟩, ⟨ev, he⟩, ⟨w, hw⟩, ⟨i, hi, hik⟩, hdi⟩ := h1
  simp only [enter] at hf hr hd hn hc hck he hw hi hik hdi
  obtain ⟨qf, qr, qd, qn, qc, ⟨ev2, he2⟩, ⟨w2, hw2⟩, qi, qdi, qtr⟩ :=
    finish_state k chain fac s2
  constructor
  · show (finish k chain fac s2).2.factories = s.factories
    rw [qf, hf]
  constructor
  · show (finish k chain fac s2).2.resolving.erase k = s.resolving
    rw [qr, hr, List.erase_cons_head]
  constructor
  · show (finish k chain fac s2).2.deferInit = s.deferInit
    rw [qd, hd]
  constructor
  · exact le_trans hn qn
  constructor
  · show ∃ dl, (finish k chain fac s2).2.cache = s.cache ++ dl ∧ _
    by_cases htr : fac.transient
    · refine ⟨d, ?_, ?_⟩
      · rw [qtr htr, hc]
      · intro p hp
        have := hck p hp
        exact ⟨this.1, fun hm => this.2.1 (List.mem_cons_of_mem _ hm),
          lt_of_lt_of_le this.2.2.1 qn, this.2.2.2⟩
    · rcases qc with hq | ⟨v, hq, hvid⟩
      · refine ⟨d, by rw [hq, hc], ?_⟩
        intro p hp
        have := hck p hp
        exact ⟨this.1, fun hm => this.2.1 (List.mem_cons_of_mem _ hm),
          lt_of_lt_of_le this.2.2.1 qn, this.2.2.2⟩
      · refine ⟨d ++ [(k, v)], by rw [hq, hc, List.append_assoc], ?_⟩
        intro p hp
        rcases List.mem_append.mp hp with hp | hp
        · have := hck p hp
          exact ⟨this.1, fun hm => this.2.1 (List.mem_cons_of_mem _ hm),
            lt_of_lt_of_le this.2.2.1 qn, this.2.2.2⟩
        · simp only [List.mem_singleton] at hp
          subst hp
          refine ⟨alookup_eq_none.mp (hkc (by simpa using htr)), hk, hvid, ?_⟩
          intro fc hfc
          rw [hfacL] at hfc
          cases hfc
          simpa using htr
  constructor
  · refine ⟨.factoryCall k :: (ev ++ ev2), ?_⟩
    show (finish k chain fac s2).2.events = _
    rw [he2, he]
    simp
  constructor
  · refine ⟨w ++ w2, ?_⟩
    show (finish k chain fac s2).2.warnings = _
    rw [hw2, hw, List.append_assoc]
  constructor
  · rcases qi with hq | hq
    · refine ⟨i, ?_, ?_⟩
      · show (finish k chain fac s2).2.initState = _
        rw [hq, hi]
      intro x hx
      exact fun hm => hik x hx (List.mem_cons_of_mem _ hm)
    · refine ⟨i ++ [k], ?_, ?_⟩
      · show (finish k chain fac s2).2.initState = _
        rw [hq, hi, List.append_assoc]
      intro x hx
      rcases List.mem_append.mp hx with hx | hx
      · exact fun hm => hik x hx (List.mem_cons_of_mem _ hm)
      · simp only [List.mem_singleton] at hx
        subst hx
        exact hk
  · intro hdef
    show (finish k chain fac s2).2.initState = s.initState
    rw [qdi (by rw [hd, hdef]), hdi hdef]

theorem resolveFuel_zero (k : String) (chain : List String) (s : St) :
    resolveFuel 0 k chain s = (.error .fuelOut, s) := by
  simp only [resolveFuel]

theorem resolveFuel_notFound {k : String} {s : St} (f : Nat) (chain : List String)
    (h : alookup k s.factories = none) :
    resolveFuel (f+1) k chain s = (.error (.providerNotFound k), s) := by
  simp only [resolveFuel, h]

theorem resolveFuel_hit {k : String} {s : St} {fac : Factory} {v : Instance}
    (f : Nat) (chain : List String) (hfac : alookup k s.factories = some fac)
    (hcc : (if fac.transient then none else alookup k s.cache) = some v) :
    resolveFuel (f+1) k chain s = (.ok v, s) := by
  simp only [resolveFuel, hfac, hcc]

theorem resolveFuel_circ {k : String} {s : St} {fac : Factory}
    (f : Nat) (chain : List String) (hfac : alookup k s.factories = some fac)
    (hcc : (if fac.transient then none else alookup k s.cache) = none)
    (hres : k ∈ s.resolving) :
    resolveFuel (f+1) k chain s = (.error (.circularDependency (chain ++ [k])), s) := by
  simp only [resolveFuel, hfac, hcc, if_pos hres]

theorem resolveFuel_enter_ok {k : String} {s s2 : St} {fac : Factory} {u : Unit}
    {f : Nat} {chain : List String} (hfac : alookup k s.factories = some fac)
    (hcc : (if fac.transient then none else alookup k s.cache) = none)
    (hres : k ∉ s.resolving)
    (hp : resolveMany f fac.deps (chain ++ [k]) (enter k s) = (.ok u, s2)) :
    resolveFuel (f+1) k chain s =
      ((finish k chain fac s2).1, leave k (finish k chain fac s2).2) := by
  have hp2 : fac.deps.foldl (depFold (resolveFuel f) (chain ++ [k]))
      (.ok (), enter k s) = (.ok u, s2) := hp
  simp only [resolveFuel, hfac, hcc, if_neg hres, hp2]

theorem resolveFuel_enter_err {k : String} {s s2 : St} {fac : Factory} {e : RErr}
    {f : Nat} {chain : List String} (hfac : alookup k s.factories = some fac)
    (hcc : (if fac.transient then none else alookup k s.cache) = none)
    (hres : k ∉ s.resolving)
    (hp : resolveMany f fac.deps (chain ++ [k]) (enter k s) = (.error e, s2)) :
    resolveFuel (f+1) k chain s = (.error e, leave k s2) := by
  have hp2 : fac.deps.foldl (depFold (resolveFuel f) (chain ++ [k]))
      (.ok (), enter k s) = (.error e, s2) := hp
  simp only [resolveFuel, hfac, hcc, if_neg hres, hp2]

theorem depFold_err {rf : String → List String → St → Except RErr Instance × St}
    {chain : List String} {e : RErr} {s1 : St} :
    ∀ t : List String, t.foldl (depFold rf chain) (.error e, s1) = (.error e, s1) := by
  intro t
  induction t with
  | nil => rfl
  | cons a t ih =>
    rw [List.foldl_cons]
    exact ih

theorem resolveMany_nil (f : Nat) (chain : List String) (s : St) :
    resolveMany f [] chain s = (.ok (), s) := rfl

theorem resolveMany_cons_ok {f : Nat} {a : String} {s s1 : St} {v : Instance}
    {chain : List String} (t : List String)
    (h : resolveFuel f a chain s = (.ok v, s1)) :
    resolveMany f (a :: t) chain s = resolveMany f t chain s1 := by
  simp only [resolveMany, List.foldl_cons, depFold, h]

theorem resolveMany_cons_err {f : Nat} {a : String} {s s1 : St} {e : RErr}
    {chain : List String} (t : List String)
    (h : resolveFuel f a chain s = (.error e, s1)) :
    resolveMany f (a :: t) chain s = (.error e, s1) := by
  simp only [resolveMany, List.foldl_cons, depFold, h]
  exact depFold_err t

theorem resolveFuel_frame : ∀ (f : Nat) (k : String) (chain : List String) (s : St),
    Frame s (resolveFuel f k chain s).2 := by
  intro f
  induction f with
  | zero =>
    intro k chain s
    simp only [resolveFuel]
    exact frame_refl s
  | succ f ih =>
    have hmany : ∀ (l : List String) (chain : List String) (s : St),
        Frame s (resolveMany f l chain s).2 := by
      intro l
      induction l with
      | nil =>
        intro chain s
        simp only [resolveMany]
        exact frame_refl s
      | cons a t iht =>
        intro chain s
        have hfa := ih a chain s
        rcases h : resolveFuel f a chain s with ⟨r, s1⟩
        rw [h] at hfa
        cases r with
        | ok v =>
          rw [resolveMany_cons_ok t h]
          exact frame_trans hfa (iht chain s1)
        | error e =>
          rw [resolveMany_cons_err t h]
          exact hfa
    intro k chain s
    rcases hfac : alookup k s.factories with _ | fac
    · rw [resolveFuel_notFound f chain hfac]
      exact frame_refl s
    · rcases hcc : (if fac.transient then none else alookup k s.cache) with _ | v
      · by_cases hres : k ∈ s.resolving
        · rw [resolveFuel_circ f chain hfac hcc hres]
          exact frame_refl s
        · have hkc : fac.transient = false → alookup k s.cache = none := by
            intro htr
            rwa [htr, if_neg (by simp)] at hcc
          have hfm := hmany fac.deps (chain ++ [k]) (enter k s)
          rcases hp : resolveMany f fac.deps (chain ++ [k]) (enter k s) with ⟨dres, s2⟩
          rw [hp] at hfm
          cases dres with
          | ok u =>
            rw [resolveFuel_enter_ok hfac hcc hres hp]
            exact frame_enter_finish_leave hres hfac hkc hfm
          | error e =>
            rw [resolveFuel_enter_err hfac hcc hres hp]
            exact frame_enter_leave hres hfm
      · rw [resolveFuel_hit f chain hfac hcc]
        exact frame_refl s

theorem resolveMany_frame (f : Nat) (l : List String) (chain : List String) (s : St) :
    Frame s (resolveMany f l chain s).2 := by
  induction l generalizing s with
  | nil =>
    simp only [resolveMany]
    exact frame_refl s
  | cons a t iht =>
    have hfa := resolveFuel_frame f a chain s
    rcases h : resolveFuel f a chain s with ⟨r, s1⟩
    rw [h] at hfa
    cases r with
    | ok v =>
      rw [resolveMany_cons_ok t h]
      exact frame_trans hfa (iht s1)
    | error e =>
      rw [resolveMany_cons_err t h]
      exact hfa

theorem resolveTop_frame (k : String) (s : St) : Frame s (resolveTop k s).2 :=
  resolveFuel_frame _ k [] s

theorem inlineInit_cache (k : String) (i : Instance) (s : St) :
    (inlineInit k i s).cache = s.cache := by
  unfold inlineInit
  split
  · rfl
  split
  · rfl
  split
  · rfl
  · split <;> rfl

theorem inlineInit_fresh (k : String) (i : Instance) (s : St) :
    (inlineInit k i s).fresh = s.fresh := by
  unfold inlineInit
  split
  · rfl
  split
  · rfl
  split
  · rfl
  · split <;> rfl

theorem inlineInit_factories (k : String) (i : Instance) (s : St) :
    (inlineInit k i s).factories = s.factories := by
  unfold inlineInit
  split
  · rfl
  split
  · rfl
  split
  · rfl
  · split <;> rfl

theorem inlineInit_resolving (k : String) (i : Instance) (s : St) :
    (inlineInit k i s).resolving = s.resolving := by
  unfold inlineInit
  split
  · rfl
  split
  · rfl
  split
  · rfl
  · split <;> rfl

theorem finish_make_fst {fac : Factory} {ispec : InstanceSpec}
    (k : String) (chain : List String) (s : St)
    (hbeh : fac.behavior = .make ispec) :
    (finish k chain fac s).1 = .ok ⟨s.fresh, ispec⟩ := by
  simp only [finish, hbeh]

theorem finish_make_cache {fac : Factory} {ispec : InstanceSpec}
    (k : String) (chain : List String) (s : St)
    (hbeh : fac.behavior = .make ispec) (htr : fac.transient = false) :
    (finish k chain fac s).2.cache = s.cache ++ [(k, ⟨s.fresh, ispec⟩)] := by
  simp [finish, hbeh, htr, inlineInit_cache]

theorem finish_make_cache_transient {fac : Factory} {ispec : InstanceSpec}
    (k : String) (chain : List String) (s : St)
    (hbeh : fac.behavior = .make ispec) (htr : fac.transient = true) :
    (finish k chain fac s).2.cache = s.cache := by
  simp [finish, hbeh, htr, inlineInit_cache]

theorem finish_make_fresh {fac : Factory} {ispec : InstanceSpec}
    (k : String) (chain : List String) (s : St)
    (hbeh : fac.behavior = .make ispec) :
    (finish k chain fac s).2.fresh = s.fresh + 1 := by
  simp only [finish, hbeh]
  split <;> rw [inlineInit_fresh]

/-- resolveTop unfolded to successor-shaped fuel. -/
theorem resolveTop_as_fuel (k : String) (s : St) :
    resolveTop k s = resolveFuel (s.factories.length + 1 + 1) k [] s := rfl

/-- The shape of a successful top-level resolution that misses the cache:
the factory produced an instance stamped with the post-dependency counter,
and the final state is the finish state of the dependency-resolution state,
unmarked. -/
theorem resolve_miss_ok {k : String} {s s' : St} {fac : Factory} {v : Instance}
    (hfac : alookup k s.factories = some fac)
    (hcc : (if fac.transient then none else alookup k s.cache) = none)
    (h : resolveTop k s = (.ok v, s')) :
    ∃ ispec s2,
      fac.behavior = .make ispec ∧
      resolveMany (s.factories.length + 1) fac.deps ([] ++ [k]) (enter k s) =
        (.ok (), s2) ∧
      v = ⟨s2.fresh, ispec⟩ ∧ k ∉ s.resolving ∧
      s' = leave k (finish k [] fac s2).2 := by
  rw [resolveTop_as_fuel] at h
  by_cases hres : k ∈ s.resolving
  · rw [resolveFuel_circ _ _ hfac hcc hres] at h
    simp at h
  · rcases hp : resolveMany (s.factories.length + 1) fac.deps ([] ++ [k]) (enter k s)
      with ⟨dres, s2⟩
    cases dres with
    | error e =>
      rw [resolveFuel_enter_err hfac hcc hres hp] at h
      simp at h
    | ok u =>
      cases u
      rw [resolveFuel_enter_ok hfac hcc hres hp] at h
      rcases hbeh : fac.behavior with ispec | _ | _
      · refine ⟨ispec, s2, rfl, rfl, ?_, hres, ?_⟩
        · have h1 := congrArg Prod.fst h
          rw [finish_make_fst k [] s2 hbeh] at h1
          exact (Except.ok.injEq _ _).mp h1.symm
        · exact (congrArg Prod.snd h).symm
      · have h1 := congrArg Prod.fst h
        simp [finish, hbeh] at h1
      · have h1 := congrArg Prod.fst h
        simp [finish, hbeh] at h1

/-- A cached non-transient key resolves to the cached instance without any
state change. -/
theorem resolve_hit {k : String} {s : St} {fac : Factory} {v : Instance}
    (hfac : alookup k s.factories = some fac) (htr : fac.transient = false)
    (hca : alookup k s.cache = some v) :
    resolveTop k s = (.ok v, s) := by
  rw [resolveTop_as_fuel]
  exact resolveFuel_hit _ _ hfac (by rw [htr]; simpa using hca)

/-- After any successful resolution of a non-transient key, the returned
instance is the cached one. -/
theorem resolve_ok_cached {k : String} {s s' : St} {fac : Factory} {v : Instance}
    (hfac : alookup k s.factories = some fac) (htr : fac.transient = false)
    (h : resolveTop k s = (.ok v, s')) :
    alookup k s'.cache = some v := by
  rcases hca : alookup k s.cache with _ | w
  · have hcc : (if fac.transient then none else alookup k s.cache) = none := by
      rw [htr, hca]
      simp
    obtain ⟨ispec, s2, hbeh, hp, hv, hres, hs'⟩ := resolve_miss_ok hfac hcc h
    have hfm := resolveMany_frame (s.factories.length + 1) fac.deps ([] ++ [k]) (enter k s)
    rw [hp] at hfm
    obtain ⟨-, -, -, -, ⟨d, hc, hck⟩, -⟩ := hfm
    have hkd : k ∉ akeys s2.cache := by
      have hce : (enter k s).cache = s.cache := rfl
      rw [hc, hce, akeys_append]
      intro hmem
      rcases List.mem_append.mp hmem with hm | hm
      · exact alookup_eq_none.mp hca hm
      · obtain ⟨p, hpd, hpk⟩ := List.mem_map.mp hm
        exact (hck p hpd).2.1 (by rw [hpk]; exact List.mem_cons_self k _)
    rw [hs']
    show alookup k (finish k [] fac s2).2.cache = some v
    rw [finish_make_cache k [] s2 hbeh htr, alookup_append_right hkd, hv]
    simp [alookup]
  · have heq := resolve_hit hfac htr hca
    rw [heq] at h
    have hv : w = v := by simpa using congrArg Prod.fst h
    have hs : s' = s := by simpa using (congrArg Prod.snd h).symm
    rw [hs, ← hv]
    exact hca

theorem alookup_some_mem {β : Type} {k : String} {l : List (String × β)} {v : β}
    (h : alookup k l = some v) : (k, v) ∈ l := by
  induction l with
  | nil => simp [alookup] at h
  | cons p t ih =>
    obtain ⟨a, b⟩ := p
    by_cases ha : a = k
    · subst ha
      simp [alookup] at h
      simp [h]
    · simp only [alookup, if_neg ha] at h
      exact List.mem_cons_of_mem _ (ih h)

theorem alookup_filter_out {β : Type} {k : String} {ks : List String}
    (hk : k ∈ ks) (l : List (String × β)) :
    alookup k (l.filter (fun p => decide (p.1 ∉ ks))) = none := by
  induction l with
  | nil => rfl
  | cons p t ih =>
    obtain ⟨a, b⟩ := p
    by_cases ha : a ∈ ks
    · simpa [List.filter_cons, ha] using ih
    · have hak : ¬(a = k) := fun he => ha (he ▸ hk)
      simpa [List.filter_cons, ha, alookup, hak] using ih

theorem wfFresh_frame {s t : St} (hw : WfFresh s) (h : Frame s t) : WfFresh t := by
  obtain ⟨-, -, -, hn, ⟨d, hc, hck⟩, -⟩ := h
  intro p hp
  rw [hc] at hp
  rcases List.mem_append.mp hp with hp | hp
  · exact lt_of_lt_of_le (hw p hp) hn
  · exact (hck p hp).2.2.1

theorem transFree_frame {s t : St} (hw : TransFree s) (h : Frame s t) : TransFree t := by
  obtain ⟨hf, -, -, -, ⟨d, hc, hck⟩, -⟩ := h
  intro p hp
  rw [hc] at hp
  rw [hf]
  rcases List.mem_append.mp hp with hp | hp
  · exact hw p hp
  · exact (hck p hp).2.2.2

theorem transFree_sublist {s : St} {c : List (String × Instance)}
    (hw : TransFree s) (hsub : ∀ p ∈ c, p ∈ s.cache) :
    TransFree { s with cache := c } := by
  intro p hp fc hfc
  exact hw p (hsub p hp) fc hfc

/-- Identity and trace facts about a successful resolution that misses the
cache: the returned instance is freshly stamped between the old and the new
counter, its capabilities come from the factory, and the trace gains the
factory invocation. -/
theorem resolve_miss_facts {k : String} {s s' : St} {fac : Factory} {v : Instance}
    (hfac : alookup k s.factories = some fac)
    (hcc : (if fac.transient then none else alookup k s.cache) = none)
    (h : resolveTop k s = (.ok v, s')) :
    s.fresh ≤ v.id ∧ v.id < s'.fresh ∧
    (∃ ispec, fac.behavior = .make ispec ∧ v.spec = ispec) ∧
    (∃ d, s'.events = s.events ++ Event.factoryCall k :: d) := by
  obtain ⟨ispec, s2, hbeh, hp, hv, hres, hs'⟩ := resolve_miss_ok hfac hcc h
  have hfm := resolveMany_frame (s.factories.length + 1) fac.deps ([] ++ [k]) (enter k s)
  rw [hp] at hfm
  obtain ⟨-, -, -, hfresh, -, ⟨evM, hevM⟩, -, -, -⟩ := hfm
  obtain ⟨-, -, -, -, -, ⟨ev2, hev2⟩, -, -, -, -⟩ := finish_state k [] fac s2
  have henf : (enter k s).fresh = s.fresh := rfl
  have hene : (enter k s).events = s.events ++ [Event.factoryCall k] := rfl
  refine ⟨?_, ?_, ⟨ispec, hbeh, by rw [hv]⟩, ?_⟩
  · rw [hv]
    exact le_trans (le_of_eq henf.symm) hfresh
  · rw [hs', hv]
    show s2.fresh < (finish k [] fac s2).2.fresh
    rw [finish_make_fresh _ _ _ hbeh]
    exact Nat.lt_succ_self _
  · refine ⟨evM ++ ev2, ?_⟩
    rw [hs']
    show (finish k [] fac s2).2.events = _
    rw [hev2, hevM, hene]
    simp

/-- The inline initialization performed by finish when the produced instance
exposes a hook, deferred-init mode is off and the key is not yet
initialized: the key is marked, the hook start and completion are traced,
and an asynchronous failure is recorded as an async-init warning. -/
theorem finish_make_inline {k : String} {chain : List String} {fac : Factory}
    {ispec : InstanceSpec} {isp : InitSpec} {s : St}
    (hbeh : fac.behavior = .make ispec) (hisp : ispec.onInitSpec = some isp)
    (hdef : s.deferInit = false) (hini : k ∉ s.initState) :
    (finish k chain fac s).2.initState = s.initState ++ [k] ∧
    (∃ pre, (finish k chain fac s).2.events =
      s.events ++ pre ++ [Event.initStart k, Event.initEnd k]) ∧
    (isp.isAsync = true → isp.fails = true →
      Warning.asyncInitError k isp.errMsg ∈ (finish k chain fac s).2.warnings) := by
  simp only [finish, hbeh]
  by_cases htr : fac.transient <;>
    by_cases ha : isp.isAsync = true ∧ isp.fails = true <;>
    simp [htr, inlineInit, hdef, hini, hisp, ha] <;>
    exact fun h1 h2 => absurd ⟨h1, h2⟩ ha

/-- A successful cache-missing resolution of a key whose factory produces an
instance with an initialization hook, outside deferred-init mode and before
any initialization of that key: the key ends up initialized, the hook start
is traced, and an asynchronous hook failure is visible in the warnings
snapshot. -/
theorem resolve_miss_init {k : String} {s s' : St} {fac : Factory} {v : Instance}
    {ispec : InstanceSpec} {isp : InitSpec}
    (hfac : alookup k s.factories = some fac)
    (hcc : (if fac.transient then none else alookup k s.cache) = none)
    (hbeh : fac.behavior = .make ispec) (hisp : ispec.onInitSpec = some isp)
    (hdef : s.deferInit = false) (hini : k ∉ s.initState)
    (h : resolveTop k s = (.ok v, s')) :
    k ∈ s'.initState ∧
    (∃ d, s'.events = s.events ++ d ∧ Event.factoryCall k ∈ d ∧
      Event.initStart k ∈ d) ∧
    (isp.isAsync = true → isp.fails = true →
      Warning.asyncInitError k isp.errMsg ∈ getWarnings s') := by
  obtain ⟨ispec2, s2, hbeh2, hp, hv, hres, hs'⟩ := resolve_miss_ok hfac hcc h
  rw [hbeh] at hbeh2
  have hieq : ispec = ispec2 := by
    cases hbeh2
    rfl
  subst hieq
  have hfm := resolveMany_frame (s.factories.length + 1) fac.deps ([] ++ [k]) (enter k s)
  rw [hp] at hfm
  obtain ⟨-, hrs, hdf, -, -, ⟨evM, hevM⟩, -, ⟨ini, hini2, hinik⟩, -⟩ := hfm
  have hdef2 : s2.deferInit = false := by
    rw [hdf]
    exact hdef
  have hini2m : k ∉ s2.initState := by
    rw [hini2]
    intro hmem
    rcases List.mem_append.mp hmem with hm | hm
    · exact hini hm
    · exact hinik k hm (List.mem_cons_self _ _)
  obtain ⟨hfin1, ⟨pre, hfin2⟩, hfin3⟩ := finish_make_inline hbeh hisp hdef2 hini2m
  have hene : (enter k s).events = s.events ++ [Event.factoryCall k] := rfl
  refine ⟨?_, ?_, ?_⟩
  · rw [hs']
    show k ∈ (finish k [] fac s2).2.initState
    rw [hfin1]
    simp
  · refine ⟨[Event.factoryCall k] ++ evM ++ pre ++ [Event.initStart k, Event.initEnd k], ?_, by simp, by simp⟩
    rw [hs']
    show (finish k [] fac s2).2.events = _
    rw [hfin2, hevM, hene]
    simp
  · intro ha hf
    rw [hs']
    show Warning.asyncInitError k isp.errMsg ∈ (finish k [] fac s2).2.warnings
    exact hfin3 ha hf

theorem initFrame_refl (s : St) : InitFrame s s :=
  ⟨rfl, rfl, rfl, rfl, rfl, rfl, rfl, ⟨[], by simp⟩, ⟨[], by simp⟩⟩

theorem initFrame_trans {s t u : St} (h1 : InitFrame s t) (h2 : InitFrame t u) :
    InitFrame s u := by
  obtain ⟨a1, b1, c1, d1, e1, f1, g1, ⟨i1, hi1⟩, ⟨v1, hv1⟩⟩ := h1
  obtain ⟨a2, b2, c2, d2, e2, f2, g2, ⟨i2, hi2⟩, ⟨v2, hv2⟩⟩ := h2
  exact ⟨a2.trans a1, b2.trans b1, c2.trans c1, d2.trans d1, e2.trans e1,
    f2.trans f1, g2.trans g1, ⟨i1 ++ i2, by rw [hi2, hi1, List.append_assoc]⟩,
    ⟨v1 ++ v2, by rw [hv2, hv1, List.append_assoc]⟩⟩

theorem initBegin_frame (k : String) (s : St) : InitFrame s (initBegin k s).2 := by
  unfold initBegin
  split
  · exact initFrame_refl s
  split
  · exact initFrame_refl s
  · split
    · exact ⟨rfl, rfl, rfl, rfl, rfl, rfl, rfl, ⟨[k], by simp⟩, ⟨[], by simp⟩⟩
    · exact ⟨rfl, rfl, rfl, rfl, rfl, rfl, rfl, ⟨[k], by simp⟩,
        ⟨[.initStart k], by simp⟩⟩

theorem levelStart_frame : ∀ (l : List String) (s : St),
    InitFrame s (levelStart l s).2 := by
  intro l
  induction l with
  | nil => exact fun s => initFrame_refl s
  | cons a t ih =>
    intro s
    exact initFrame_trans (initBegin_frame a s) (ih (initBegin a s).2)

theorem levelJoin_frame : ∀ (l : List (String × InitSpec)) (s : St),
    InitFrame s (levelJoin l s).2 := by
  intro l
  induction l with
  | nil => exact fun s => initFrame_refl s
  | cons p t ih =>
    intro s
    refine initFrame_trans ?_ (ih _)
    exact ⟨rfl, rfl, rfl, rfl, rfl, rfl, rfl, ⟨[], by simp⟩,
      ⟨[.initEnd p.1], by simp⟩⟩

theorem processLevels_frame : ∀ (lv : List (List String)) (s : St),
    InitFrame s (processLevels lv s).2 := by
  intro lv
  induction lv with
  | nil => exact fun s => initFrame_refl s
  | cons l rest ih =>
    intro s
    exact initFrame_trans (levelStart_frame l s)
      (initFrame_trans (levelJoin_frame _ _) (ih _))

theorem transFree_cache_eq {s t : St} (hw : TransFree s)
    (hf : t.factories = s.factories) (hsub : ∀ p ∈ t.cache, p ∈ s.cache) :
    TransFree t := by
  intro p hp fc hfc
  rw [hf] at hfc
  exact hw p (hsub p hp) fc hfc

theorem transFree_resolveTop {s : St} (hw : TransFree s) (q : String) :
    TransFree (resolveTop q s).2 :=
  transFree_frame hw (resolveTop_frame q s)

theorem preload_resolve_err {s s2 : St} {keys : Option (List String)} {e : RErr}
    (hp : resolveMany (s.factories.length + 2) (preloadKeys keys s) []
      { s with deferInit := true } = (.error e, s2)) :
    preload keys s = (.error (.resolveFailed e),
      { s2 with
        cache := List.filter (fun q => decide (q.1 ∈ s.cache.map (·.1))) s2.cache,
        deferInit := false }) := by
  simp only [preload, hp]

theorem preload_resolve_ok {s s2 : St} {keys : Option (List String)} {u : Unit}
    (hp : resolveMany (s.factories.length + 2) (preloadKeys keys s) []
      { s with deferInit := true } = (.ok u, s2)) :
    preload keys s =
      preloadInitPhase (preloadKeys keys s) { s2 with deferInit := false } := by
  simp only [preload, hp]

theorem transFree_preload {s : St} (hw : TransFree s) (ks : Option (List String)) :
    TransFree (preload ks s).2 := by
  have hw1 : TransFree { s with deferInit := true } := hw
  rcases hp : resolveMany (s.factories.length + 2) (preloadKeys ks s) []
    { s with deferInit := true } with ⟨r, s2⟩
  have hfm := resolveMany_frame (s.factories.length + 2) (preloadKeys ks s)
    [] { s with deferInit := true }
  rw [hp] at hfm
  have hw2 : TransFree s2 := transFree_frame hw1 hfm
  cases r with
  | error e =>
    rw [preload_resolve_err hp]
    refine transFree_cache_eq hw2 rfl ?_
    intro p hpm
    exact (List.mem_filter.mp hpm).1
  | ok u =>
    rw [preload_resolve_ok hp]
    have hw3 : TransFree { s2 with deferInit := false } :=
      fun p hpm fc hfc => hw2 p hpm fc hfc
    unfold preloadInitPhase
    have hpf := processLevels_frame
      (levelsOf ({ s2 with deferInit := false }).depGraph
        (closureRun ({ s2 with deferInit := false }).depGraph (preloadKeys ks s)).1)
      { s2 with deferInit := false }
    obtain ⟨ha, hb, -⟩ := hpf
    refine transFree_cache_eq hw3 ha ?_
    intro p hpm
    rw [hb] at hpm
    exact hpm

theorem transFree_dispose {s : St} (hw : TransFree s) : TransFree (dispose s).2 := by
  intro p hp
  simp [dispose] at hp

theorem transFree_reset {s : St} (hw : TransFree s) (ks : List String) :
    TransFree (reset ks s) := by
  refine transFree_cache_eq hw rfl ?_
  intro p hp
  exact (List.mem_filter.mp hp).1

/-- C10: the transient marker round-trips and is behavior-preserving: the
wrapper returned by transient calls the wrapped factory on every accessor
argument and is recognized by isTransient, while isTransient is false on
every value that is not a function carrying the marker property with value
true — in particular on every unwrapped factory and every non-function
value. -/
theorem transient_roundtrip {α β : Type} (f : JSFunction α β) :
    (∀ c : α, (transient f).call c = f.call c) ∧
    isTransient (JSValue.fn (transient f)) = true ∧
    (∀ v : JSValue α β,
      (∀ g : JSFunction α β, v = .fn g → g.transientMarker ≠ some true) →
      isTransient v = false) := by
  refine ⟨fun c => rfl, by simp [isTransient, transient], ?_⟩
  intro v hv
  cases v with
  | fn g => simp [isTransient, hv g rfl]
  | other => rfl

/-- Witness for C10 at a concrete factory: the wrapper preserves the call
result, the wrapper is recognized, and both an unwrapped function and a
non-function value are rejected. -/
theorem transient_roundtrip_witness :
    (transient (⟨fun n : Nat => n + 1, none⟩ : JSFunction Nat Nat)).call 41 = 42 ∧
    isTransient (JSValue.fn (transient (⟨fun n : Nat => n + 1, none⟩ : JSFunction Nat Nat))) = true ∧
    isTransient (JSValue.fn (⟨fun n : Nat => n + 1, none⟩ : JSFunction Nat Nat)) = false ∧
    isTransient (JSValue.other : JSValue Nat Nat) = false := by
  have h := transient_roundtrip (⟨fun n : Nat => n + 1, none⟩ : JSFunction Nat Nat)
  refine ⟨h.1 41, h.2.1, ?_, ?_⟩
  · exact h.2.2 (JSValue.fn ⟨fun n : Nat => n + 1, none⟩)
      (fun g hg => by cases hg; simp)
  · exact h.2.2 JSValue.other (fun g hg => by cases hg)


/-- C8: for any non-transient (singleton) key whose resolution succeeds — in
particular over any acyclic dependency graph — resolving the key twice
returns the identical instance: the first success caches the instance and
the second resolve returns the cached value with no state change at all,
hence without re-invoking the factory. -/
theorem singleton_idempotent {k : String} {s s2 : St} {fac : Factory} {v : Instance}
    (hfac : alookup k s.factories = some fac) (htr : fac.transient = false)
    (h : resolveTop k s = (.ok v, s2)) :
    alookup k s2.cache = some v ∧ resolveTop k s2 = (.ok v, s2) := by
  have hc := resolve_ok_cached hfac htr h
  refine ⟨hc, ?_⟩
  have hfr := resolveTop_frame k s
  rw [h] at hfr
  have hfac2 : alookup k s2.factories = some fac := by
    rw [hfr.1, hfac]
  exact resolve_hit hfac2 htr hc

/-- Witness for C8: one singleton key resolved twice from a fresh state. -/
theorem singleton_idempotent_witness :
    alookup "a" (resolveTop "a" (exSt [("a", ⟨[], .make exPlain, false⟩)])).2.cache
      = some ⟨0, exPlain⟩ ∧
    resolveTop "a" (resolveTop "a" (exSt [("a", ⟨[], .make exPlain, false⟩)])).2
      = (.ok ⟨0, exPlain⟩,
         (resolveTop "a" (exSt [("a", ⟨[], .make exPlain, false⟩)])).2) :=
  @singleton_idempotent "a" (exSt [("a", ⟨[], .make exPlain, false⟩)])
    (resolveTop "a" (exSt [("a", ⟨[], .make exPlain, false⟩)])).2
    ⟨[], .make exPlain, false⟩ ⟨0, exPlain⟩
    (by decide) (by decide) (by decide)

/-- C7: a key registered with a transient-marked factory yields a freshly
stamped, distinct instance on every successful resolution, with the factory
invoked anew each time; such a key never enters the cache through any
resolution; and freedom of the cache from transient results is an invariant
preserved by resolve, preload, dispose and reset. -/
theorem transient_isolation {k : String} {s : St} {fac : Factory}
    (hfac : alookup k s.factories = some fac) (htr : fac.transient = true) :
    (∀ v1 s1 v2 s2, resolveTop k s = (.ok v1, s1) → resolveTop k s1 = (.ok v2, s2) →
      v1.id ≠ v2.id ∧
      (∃ d1, s1.events = s.events ++ Event.factoryCall k :: d1) ∧
      (∃ d2, s2.events = s1.events ++ Event.factoryCall k :: d2)) ∧
    (∀ q r t, resolveTop q s = (r, t) → k ∉ akeys s.cache → k ∉ akeys t.cache) ∧
    (TransFree s →
      (∀ q, TransFree (resolveTop q s).2) ∧
      (∀ ks, TransFree (preload ks s).2) ∧
      TransFree (dispose s).2 ∧
      (∀ ks, TransFree (reset ks s))) := by
  have hcc : (if fac.transient then none else alookup k s.cache) = none := by
    rw [htr]
    simp
  refine ⟨?_, ?_, fun hw => ⟨fun q => transFree_resolveTop hw q,
    fun ks => transFree_preload hw ks, transFree_dispose hw,
    fun ks => transFree_reset hw ks⟩⟩
  · intro v1 s1 v2 s2 h1 h2
    have hfr := resolveTop_frame k s
    rw [h1] at hfr
    have hfac1 : alookup k s1.factories = some fac := by
      rw [hfr.1, hfac]
    have hcc1 : (if fac.transient then none else alookup k s1.cache) = none := by
      rw [htr]
      simp
    obtain ⟨hl1, hu1, -, ⟨d1, he1⟩⟩ := resolve_miss_facts hfac hcc h1
    obtain ⟨hl2, hu2, -, ⟨d2, he2⟩⟩ := resolve_miss_facts hfac1 hcc1 h2
    exact ⟨Nat.ne_of_lt (lt_of_lt_of_le hu1 hl2), ⟨d1, he1⟩, ⟨d2, he2⟩⟩
  · intro q r t hrt hnc
    have hfr := resolveTop_frame q s
    rw [hrt] at hfr
    obtain ⟨-, -, -, -, ⟨d, hc, hck⟩, -⟩ := hfr
    rw [hc, akeys_append]
    intro hmem
    rcases List.mem_append.mp hmem with hm | hm
    · exact hnc hm
    · obtain ⟨p, hpd, hpk⟩ := List.mem_map.mp hm
      have := (hck p hpd).2.2.2 fac (by rw [hpk, hfac])
      rw [htr] at this
      cases this

/-- Witness for C7: a transient key resolved twice from a fresh state, and
the invariant checks on that state. -/
theorem transient_isolation_witness :
    ((⟨0, exPlain⟩ : Instance).id ≠ (⟨1, exPlain⟩ : Instance).id ∧
      (∃ d1, (resolveTop "t" (exSt [("t", ⟨[], .make exPlain, true⟩)])).2.events =
        (exSt [("t", ⟨[], .make exPlain, true⟩)]).events ++ Event.factoryCall "t" :: d1) ∧
      (∃ d2, (resolveTop "t" (resolveTop "t" (exSt [("t", ⟨[], .make exPlain, true⟩)])).2).2.events =
        (resolveTop "t" (exSt [("t", ⟨[], .make exPlain, true⟩)])).2.events
          ++ Event.factoryCall "t" :: d2)) ∧
    ("t" ∉ akeys (resolveTop "t" (exSt [("t", ⟨[], .make exPlain, true⟩)])).2.cache) ∧
    TransFree (resolveTop "t" (exSt [("t", ⟨[], .make exPlain, true⟩)])).2 := by
  have h := @transient_isolation "t" (exSt [("t", ⟨[], .make exPlain, true⟩)])
    ⟨[], .make exPlain, true⟩ (by decide) (by decide)
  refine ⟨?_, ?_, ?_⟩
  · exact h.1 ⟨0, exPlain⟩ (resolveTop "t" (exSt [("t", ⟨[], .make exPlain, true⟩)])).2
      ⟨1, exPlain⟩
      (resolveTop "t" (resolveTop "t" (exSt [("t", ⟨[], .make exPlain, true⟩)])).2).2
      (by decide) (by decide)
  · exact h.2.1 "t" (resolveTop "t" (exSt [("t", ⟨[], .make exPlain, true⟩)])).1
      (resolveTop "t" (exSt [("t", ⟨[], .make exPlain, true⟩)])).2
      (by decide) (by decide)
  · exact (h.2.2 (by intro p hp fc hfc; simp [exSt] at hp)).1 "t"

/-- C9: resolve, reset, resolve on a singleton key whose factory produces an
instance with an initialization hook: reset drops the cache entry and the
init flag, so the second resolution invokes the factory again, yields an
instance with a strictly larger, hence different identity stamp, fires the
initialization hook a second time and re-marks the key initialized. -/
theorem reset_roundtrip {k : String} {s s1 s3 : St} {fac : Factory}
    {ispec : InstanceSpec} {isp : InitSpec} {v1 v2 : Instance}
    (hfac : alookup k s.factories = some fac) (htr : fac.transient = false)
    (hbeh : fac.behavior = .make ispec) (hisp : ispec.onInitSpec = some isp)
    (hwf : WfFresh s) (hdef : s.deferInit = false)
    (h1 : resolveTop k s = (.ok v1, s1))
    (h2 : resolveTop k (reset [k] s1) = (.ok v2, s3)) :
    alookup k (reset [k] s1).cache = none ∧ k ∉ (reset [k] s1).initState ∧
    v2.id ≠ v1.id ∧
    (∃ d, s3.events = (reset [k] s1).events ++ d ∧
      Event.factoryCall k ∈ d ∧ Event.initStart k ∈ d) ∧
    k ∈ s3.initState := by
  have hfr := resolveTop_frame k s
  rw [h1] at hfr
  have hwf1 : WfFresh s1 := wfFresh_frame hwf hfr
  have hfac1 : alookup k (reset [k] s1).factories = some fac := by
    show alookup k s1.factories = some fac
    rw [hfr.1, hfac]
  have hca1 : alookup k (reset [k] s1).cache = none :=
    alookup_filter_out (List.mem_singleton.mpr rfl) s1.cache
  have hcc1 : (if fac.transient then none
      else alookup k (reset [k] s1).cache) = none := by
    rw [htr, hca1]
    simp
  have hini1 : k ∉ (reset [k] s1).initState := by
    intro hm
    have := (List.mem_filter.mp hm).2
    simp at this
  have hdef1 : (reset [k] s1).deferInit = false := by
    show s1.deferInit = false
    rw [hfr.2.2.1, hdef]
  obtain ⟨hmark, hev, -⟩ :=
    resolve_miss_init hfac1 hcc1 hbeh hisp hdef1 hini1 h2
  obtain ⟨hl2, -, -, -⟩ := resolve_miss_facts hfac1 hcc1 h2
  have hv1lt : v1.id < s1.fresh := by
    have hcv := resolve_ok_cached hfac htr h1
    exact hwf1 (k, v1) (alookup_some_mem hcv)
  have hfr2 : (reset [k] s1).fresh = s1.fresh := rfl
  refine ⟨hca1, hini1, ?_, ?_, hmark⟩
  · exact (Nat.ne_of_lt (lt_of_lt_of_le hv1lt (hfr2 ▸ hl2))).symm
  · obtain ⟨d, hd, hfc, hst⟩ := hev
    exact ⟨d, hd, hfc, hst⟩

/-- Witness for C9: one singleton key with a synchronous hook taken through
resolve, reset, resolve from a fresh state. -/
theorem reset_roundtrip_witness :
    alookup "a" (reset ["a"]
      (resolveTop "a" (exSt [("a", ⟨[], .make exInit, false⟩)])).2).cache = none ∧
    "a" ∉ (reset ["a"]
      (resolveTop "a" (exSt [("a", ⟨[], .make exInit, false⟩)])).2).initState ∧
    (⟨1, exInit⟩ : Instance).id ≠ (⟨0, exInit⟩ : Instance).id ∧
    (∃ d, (resolveTop "a" (reset ["a"]
        (resolveTop "a" (exSt [("a", ⟨[], .make exInit, false⟩)])).2)).2.events =
      (reset ["a"]
        (resolveTop "a" (exSt [("a", ⟨[], .make exInit, false⟩)])).2).events ++ d ∧
      Event.factoryCall "a" ∈ d ∧ Event.initStart "a" ∈ d) ∧
    "a" ∈ (resolveTop "a" (reset ["a"]
      (resolveTop "a" (exSt [("a", ⟨[], .make exInit, false⟩)])).2)).2.initState :=
  @reset_roundtrip "a" (exSt [("a", ⟨[], .make exInit, false⟩)])
    (resolveTop "a" (exSt [("a", ⟨[], .make exInit, false⟩)])).2
    (resolveTop "a" (reset ["a"]
      (resolveTop "a" (exSt [("a", ⟨[], .make exInit, false⟩)])).2)).2
    ⟨[], .make exInit, false⟩ exInit ⟨false, false, ""⟩ ⟨0, exInit⟩ ⟨1, exInit⟩
    (by decide) (by decide) (by decide) (by decide)
    (by intro p hp; simp [exSt] at hp) (by decide) (by decide) (by decide)


/-- C6: ordinary (non-preload) resolution of a key whose factory produces an
instance with an asynchronous initialization hook that later rejects: the
resolve call does not throw on account of the hook — with no dependency
reads it succeeds outright — the caller receives the instance built by the
factory, and the failure is recorded as an async-init warning carrying the
key and the error message, retrievable from the warnings snapshot. -/
theorem async_init_warning {k : String} {s : St} {fac : Factory}
    {ispec : InstanceSpec} {m : String}
    (hfac : alookup k s.factories = some fac)
    (hbeh : fac.behavior = .make ispec)
    (hisp : ispec.onInitSpec = some ⟨true, true, m⟩)
    (hca : alookup k s.cache = none) (hini : k ∉ s.initState)
    (hdef : s.deferInit = false) :
    (∀ v s2, resolveTop k s = (.ok v, s2) →
      v.spec = ispec ∧ Warning.asyncInitError k m ∈ getWarnings s2) ∧
    (fac.deps = [] → k ∉ s.resolving →
      ∃ s2, resolveTop k s = (.ok ⟨s.fresh, ispec⟩, s2)) := by
  have hcc : (if fac.transient then none else alookup k s.cache) = none := by
    cases htr : fac.transient <;> simp [hca]
  constructor
  · intro v s2 h
    obtain ⟨-, -, ⟨ispec2, hbeh2, hvsp⟩, -⟩ := resolve_miss_facts hfac hcc h
    have hieq : ispec2 = ispec := by
      rw [hbeh] at hbeh2
      cases hbeh2
      rfl
    obtain ⟨-, -, hwarn⟩ := resolve_miss_init hfac hcc hbeh hisp hdef hini h
    exact ⟨hieq ▸ hvsp, hwarn rfl rfl⟩
  · intro hdeps hres
    have hp : resolveMany (s.factories.length + 1) fac.deps ([] ++ [k]) (enter k s) =
        (.ok (), enter k s) := by
      rw [hdeps]
      exact resolveMany_nil _ _ _
    refine ⟨leave k (finish k [] fac (enter k s)).2, ?_⟩
    rw [resolveTop_as_fuel, resolveFuel_enter_ok hfac hcc hres hp]
    rw [finish_make_fst k [] (enter k s) hbeh]
    rfl

/-- Witness for C6: a single key whose asynchronous hook rejects, resolved
from a fresh state: the caller receives the instance and the warning is in
the snapshot. -/
theorem async_init_warning_witness :
    ((⟨0, exAsyncFail⟩ : Instance).spec = exAsyncFail ∧
      Warning.asyncInitError "f" "init failed!" ∈
        getWarnings (resolveTop "f" (exSt [("f", ⟨[], .make exAsyncFail, false⟩)])).2) ∧
    (∃ s2, resolveTop "f" (exSt [("f", ⟨[], .make exAsyncFail, false⟩)]) =
      (.ok ⟨0, exAsyncFail⟩, s2)) := by
  have h := @async_init_warning "f" (exSt [("f", ⟨[], .make exAsyncFail, false⟩)])
    ⟨[], .make exAsyncFail, false⟩ exAsyncFail "init failed!"
    (by decide) (by decide) (by decide) (by decide) (by decide) (by decide)
  exact ⟨h.1 ⟨0, exAsyncFail⟩
      (resolveTop "f" (exSt [("f", ⟨[], .make exAsyncFail, false⟩)])).2 (by decide),
    h.2 (by decide) (by decide)⟩


theorem runDestroy_spec : ∀ l : List (String × Instance),
    (runDestroy l).1 =
      (l.filter (fun p => decide (p.2.spec.onDestroySpec = some true))).map (·.1) ∧
    (runDestroy l).2 =
      (l.filter (fun p => p.2.spec.onDestroySpec.isSome)).map
        (fun p => Event.destroyCall p.1) := by
  intro l
  induction l with
  | nil => exact ⟨rfl, rfl⟩
  | cons p t ih =>
    obtain ⟨k, v⟩ := p
    rcases hd : v.spec.onDestroySpec with _ | b
    · simp [runDestroy, hd, ih.1, ih.2, List.filter_cons]
    · cases b <;> simp [runDestroy, hd, ih.1, ih.2, List.filter_cons]

theorem dispose_snd (s : St) :
    (dispose s).2 =
      { s with
        cache := [],
        initState := [],
        depGraph := [],
        warnings := [],
        events := s.events ++ (runDestroy s.cache.reverse).2 } := rfl

theorem initBegin_events (k : String) (s : St) :
    ((initBegin k s).1 = none ∧ (initBegin k s).2.events = s.events) ∨
    (∃ isp, (initBegin k s).1 = some isp ∧
      (initBegin k s).2.events = s.events ++ [Event.initStart k]) := by
  unfold initBegin
  split
  · exact Or.inl ⟨rfl, rfl⟩
  split
  · exact Or.inl ⟨rfl, rfl⟩
  split
  · exact Or.inl ⟨rfl, rfl⟩
  · rename_i inst _ isp hisp
    exact Or.inr ⟨isp, rfl, rfl⟩

theorem levelStart_events : ∀ (l : List String) (s : St),
    ∃ d, (levelStart l s).2.events = s.events ++ d ∧
      ∀ e ∈ d, ∃ p, p ∈ (levelStart l s).1 ∧ e = Event.initStart p.1 := by
  intro l
  induction l with
  | nil => exact fun s => ⟨[], by simp [levelStart], by simp⟩
  | cons a t ih =>
    intro s
    obtain ⟨d, hd, hde⟩ := ih (initBegin a s).2
    rcases initBegin_events a s with ⟨hb1, hb2⟩ | ⟨isp, hb1, hb2⟩
    · refine ⟨d, ?_, ?_⟩
      · show (levelStart t (initBegin a s).2).2.events = _
        rw [hd, hb2]
      · intro e he
        obtain ⟨p, hp, hpe⟩ := hde e he
        refine ⟨p, ?_, hpe⟩
        show p ∈ (match (initBegin a s).1 with
          | some isp => (a, isp) :: (levelStart t (initBegin a s).2).1
          | none => (levelStart t (initBegin a s).2).1)
        rw [hb1]
        exact hp
    · refine ⟨Event.initStart a :: d, ?_, ?_⟩
      · show (levelStart t (initBegin a s).2).2.events = _
        rw [hd, hb2]
        simp
      · intro e he
        rcases List.mem_cons.mp he with he | he
        · refine ⟨(a, isp), ?_, by rw [he]⟩
          show (a, isp) ∈ (match (initBegin a s).1 with
            | some isp => (a, isp) :: (levelStart t (initBegin a s).2).1
            | none => (levelStart t (initBegin a s).2).1)
          rw [hb1]
          exact List.mem_cons_self _ _
        · obtain ⟨p, hp, hpe⟩ := hde e he
          refine ⟨p, ?_, hpe⟩
          show p ∈ (match (initBegin a s).1 with
            | some isp => (a, isp) :: (levelStart t (initBegin a s).2).1
            | none => (levelStart t (initBegin a s).2).1)
          rw [hb1]
          exact List.mem_cons_of_mem _ hp
  
theorem levelJoin_events : ∀ (l : List (String × InitSpec)) (s : St),
    (levelJoin l s).2.events = s.events ++ l.map (fun p => Event.initEnd p.1) := by
  intro l
  induction l with
  | nil => exact fun s => by simp [levelJoin]
  | cons p t ih =>
    intro s
    obtain ⟨k, isp⟩ := p
    show (levelJoin t _).2.events = _
    rw [ih]
    simp

/-- Every initialization hook started inside the level machinery is joined:
any initStart event in the emitted trace segment is matched by an initEnd
event for the same key in that segment, regardless of collected failures. -/
theorem processLevels_events : ∀ (lv : List (List String)) (s : St),
    ∃ d, (processLevels lv s).2.events = s.events ++ d ∧
      ∀ k, Event.initStart k ∈ d → Event.initEnd k ∈ d := by
  intro lv
  induction lv with
  | nil => exact fun s => ⟨[], by simp [processLevels], by simp⟩
  | cons l rest ih =>
    intro s
    obtain ⟨d1, hd1, hd1s⟩ := levelStart_events l s
    have hd2 := levelJoin_events (levelStart l s).1 (levelStart l s).2
    obtain ⟨d3, hd3, hd3s⟩ := ih (levelJoin (levelStart l s).1 (levelStart l s).2).2
    refine ⟨d1 ++ (levelStart l s).1.map (fun p => Event.initEnd p.1) ++ d3, ?_, ?_⟩
    · show (processLevels rest _).2.events = _
      rw [hd3, hd2, hd1]
      simp
    · intro k hk
      rcases List.mem_append.mp hk with hk | hk
      · rcases List.mem_append.mp hk with hk | hk
        · obtain ⟨p, hp, hpe⟩ := hd1s _ hk
          have hke : p.1 = k := by
            cases hpe
            rfl
          refine List.mem_append.mpr (Or.inl (List.mem_append.mpr (Or.inr ?_)))
          rw [← hke]
          exact List.mem_map.mpr ⟨p, hp, rfl⟩
        · obtain ⟨p, -, hpe⟩ := List.mem_map.mp hk
          cases hpe
      · exact List.mem_append.mpr (Or.inr (hd3s k hk))

/-- C4: dispose invokes the teardown hook of every cached instance exposing
one, in exact reverse cache-insertion order, and afterwards — whatever the
hook outcomes were — the cache, the init state, the dependency graph and the
warnings are empty, so a later successful access to any key runs its factory
anew and, when a hook is exposed outside deferred-init mode, fires
initialization again. -/
theorem dispose_teardown (s : St) :
    (dispose s).2.cache = [] ∧ (dispose s).2.initState = [] ∧
    (dispose s).2.depGraph = [] ∧ (dispose s).2.warnings = [] ∧
    (dispose s).2.events = s.events ++
      (s.cache.reverse.filter (fun p => p.2.spec.onDestroySpec.isSome)).map
        (fun p => Event.destroyCall p.1) ∧
    (∀ k fac v t, alookup k (dispose s).2.factories = some fac →
      resolveTop k (dispose s).2 = (.ok v, t) →
      ∃ d, t.events = (dispose s).2.events ++ Event.factoryCall k :: d) ∧
    (∀ k fac ispec isp v t, alookup k (dispose s).2.factories = some fac →
      fac.behavior = .make ispec → ispec.onInitSpec = some isp →
      s.deferInit = false →
      resolveTop k (dispose s).2 = (.ok v, t) →
      k ∈ t.initState ∧
      ∃ d, t.events = (dispose s).2.events ++ d ∧ Event.initStart k ∈ d) := by
  refine ⟨rfl, rfl, rfl, rfl, ?_, ?_, ?_⟩
  · rw [dispose_snd]
    show s.events ++ (runDestroy s.cache.reverse).2 = _
    rw [(runDestroy_spec s.cache.reverse).2]
  · intro k fac v t hfac h
    have hcck : (if fac.transient then none
        else alookup k (dispose s).2.cache) = none := by
      cases fac.transient <;> simp [dispose_snd, alookup]
    obtain ⟨-, -, -, ⟨d, hd⟩⟩ := resolve_miss_facts hfac hcck h
    exact ⟨d, hd⟩
  · intro k fac ispec isp v t hfac hbeh hisp hdef h
    have hcck : (if fac.transient then none
        else alookup k (dispose s).2.cache) = none := by
      cases fac.transient <;> simp [dispose_snd, alookup]
    have hini : k ∉ (dispose s).2.initState := by
      rw [dispose_snd]
      simp
    have hdef2 : (dispose s).2.deferInit = false := by
      rw [dispose_snd]
      exact hdef
    obtain ⟨hmark, ⟨d, hd, -, hst⟩, -⟩ :=
      resolve_miss_init hfac hcck hbeh hisp hdef2 hini h
    exact ⟨hmark, d, hd, hst⟩


theorem initOutcome_ok_iff (errs : List (String × String)) (stuck : List String) :
    initOutcome errs stuck = .ok () ↔ errs = [] ∧ stuck = [] := by
  rcases errs with _ | ⟨e, t⟩
  · rcases stuck with _ | ⟨a, r⟩ <;> simp [initOutcome]
  · rcases t with _ | ⟨e2, t2⟩ <;> simp [initOutcome]

theorem initOutcome_single (e : String × String) (stuck : List String) :
    initOutcome [e] stuck = .error (.initFailed e.1 e.2) := rfl

theorem initOutcome_multi (e1 e2 : String × String) (r : List (String × String))
    (stuck : List String) :
    initOutcome (e1 :: e2 :: r) stuck = .error (.aggregate (e1 :: e2 :: r)) := rfl

/-- Witness for C4: resolve first, second, third; dispose destroys in the
order third, second, first even though the teardown hook of second throws,
clears all state, and a later access to first re-runs its factory and
re-fires its initialization hook. -/
theorem dispose_teardown_witness :
    (dispose exC4).2.cache = [] ∧ (dispose exC4).2.initState = [] ∧
    (dispose exC4).2.depGraph = [] ∧ (dispose exC4).2.warnings = [] ∧
    (dispose exC4).2.events = exC4.events ++
      (exC4.cache.reverse.filter (fun p => p.2.spec.onDestroySpec.isSome)).map
        (fun p => Event.destroyCall p.1) ∧
    (∃ d, (resolveTop "first" (dispose exC4).2).2.events =
      (dispose exC4).2.events ++ Event.factoryCall "first" :: d) ∧
    ("first" ∈ (resolveTop "first" (dispose exC4).2).2.initState ∧
      ∃ d, (resolveTop "first" (dispose exC4).2).2.events =
        (dispose exC4).2.events ++ d ∧ Event.initStart "first" ∈ d) := by
  have h := dispose_teardown exC4
  refine ⟨h.1, h.2.1, h.2.2.1, h.2.2.2.1, h.2.2.2.2.1, ?_, ?_⟩
  · exact h.2.2.2.2.2.1 "first" ⟨[], .make exFull, false⟩ ⟨3, exFull⟩
      (resolveTop "first" (dispose exC4).2).2 (by decide) (by decide)
  · exact h.2.2.2.2.2.2 "first" ⟨[], .make exFull, false⟩ exFull ⟨false, false, ""⟩
      ⟨3, exFull⟩ (resolveTop "first" (dispose exC4).2).2
      (by decide) (by decide) (by decide) (by decide) (by decide)

/-- C5: for both batch lifecycle operations the collected hook failures
determine the outcome: zero failures return normally — for the
initialization phase of preload additionally requiring that no closure key
is left unplaced — exactly one failure is rethrown directly and unwrapped,
and two or more are wrapped in a single aggregate; moreover one member
failing never prevents the other hooks of the batch from running: dispose
still invokes every exposed teardown hook, and every initialization hook
started by the level machinery is joined. -/
theorem batch_error_policy (s : St) :
    ((runDestroy s.cache.reverse).1 = [] → (dispose s).1 = .ok ()) ∧
    (∀ e, (runDestroy s.cache.reverse).1 = [e] → (dispose s).1 = .error (.single e)) ∧
    (∀ e1 e2 r, (runDestroy s.cache.reverse).1 = e1 :: e2 :: r →
      (dispose s).1 = .error (.aggregate (e1 :: e2 :: r))) ∧
    ((dispose s).2.events = s.events ++
      (s.cache.reverse.filter (fun p => p.2.spec.onDestroySpec.isSome)).map
        (fun p => Event.destroyCall p.1)) ∧
    (∀ keys s2 u,
      resolveMany (s.factories.length + 2) (preloadKeys keys s) []
        { s with deferInit := true } = (.ok u, s2) →
      preload keys s =
        preloadInitPhase (preloadKeys keys s) { s2 with deferInit := false }) ∧
    (∀ keyList : List String,
      ((preloadInitPhase keyList s).1 = .ok () ↔
        (processLevels (levelsOf s.depGraph (closureRun s.depGraph keyList).1) s).1
          = [] ∧
        (closureRun s.depGraph keyList).1.filter
            (fun x => decide (x ∉
              (levelsOf s.depGraph (closureRun s.depGraph keyList).1).flatten))
          ++ (closureRun s.depGraph keyList).2 = []) ∧
      (∀ e, (processLevels
          (levelsOf s.depGraph (closureRun s.depGraph keyList).1) s).1 = [e] →
        (preloadInitPhase keyList s).1 = .error (.initFailed e.1 e.2)) ∧
      (∀ e1 e2 r, (processLevels
          (levelsOf s.depGraph (closureRun s.depGraph keyList).1) s).1
            = e1 :: e2 :: r →
        (preloadInitPhase keyList s).1 = .error (.aggregate (e1 :: e2 :: r)))) ∧
    (∀ lv : List (List String), ∃ d, (processLevels lv s).2.events = s.events ++ d ∧
      ∀ k, Event.initStart k ∈ d → Event.initEnd k ∈ d) := by
  refine ⟨?_, ?_, ?_, ?_, ?_, ?_, fun lv => processLevels_events lv s⟩
  · intro h
    simp [dispose, h]
  · intro e h
    simp [dispose, h]
  · intro e1 e2 r h
    simp [dispose, h]
  · rw [dispose_snd]
    show s.events ++ (runDestroy s.cache.reverse).2 = _
    rw [(runDestroy_spec s.cache.reverse).2]
  · exact fun keys s2 u hp => preload_resolve_ok hp
  · intro keyList
    have hfst : (preloadInitPhase keyList s).1 =
        initOutcome
          (processLevels (levelsOf s.depGraph (closureRun s.depGraph keyList).1) s).1
          ((closureRun s.depGraph keyList).1.filter
              (fun x => decide (x ∉
                (levelsOf s.depGraph (closureRun s.depGraph keyList).1).flatten))
            ++ (closureRun s.depGraph keyList).2) := rfl
    refine ⟨?_, ?_, ?_⟩
    · rw [hfst, initOutcome_ok_iff]
    · intro e h
      rw [hfst, h, initOutcome_single]
    · intro e1 e2 r h
      rw [hfst, h, initOutcome_multi]

/-- Witness for C5: concrete dispose runs with zero, one and two failing
teardown hooks, the bridging of preload to its initialization phase, the
outcome rule on a concrete level run, and the joining of started hooks. -/
theorem batch_error_policy_witness :
    (dispose ⟨[], [("a", ⟨0, exDestroy⟩)], [], [], [], [], false, 1, []⟩).1
      = .ok () ∧
    (dispose ⟨[], [("a", ⟨0, exDestroyFail⟩)], [], [], [], [], false, 1, []⟩).1
      = .error (.single "a") ∧
    (dispose ⟨[], [("a", ⟨0, exDestroyFail⟩), ("b", ⟨1, exDestroyFail⟩)],
        [], [], [], [], false, 2, []⟩).1
      = .error (.aggregate ["b", "a"]) ∧
    (preload none (exSt [("g", ⟨[], .make exInit, false⟩)]) =
      preloadInitPhase (preloadKeys none (exSt [("g", ⟨[], .make exInit, false⟩)]))
        { (resolveMany ((exSt [("g", ⟨[], .make exInit, false⟩)]).factories.length + 2)
            (preloadKeys none (exSt [("g", ⟨[], .make exInit, false⟩)])) []
            { exSt [("g", ⟨[], .make exInit, false⟩)] with deferInit := true }).2
          with deferInit := false }) ∧
    (∃ d, (processLevels [["a"]]
        ⟨[], [("a", ⟨0, exInit⟩)], [], [], [], [], false, 1, []⟩).2.events =
      (⟨[], [("a", ⟨0, exInit⟩)], [], [], [], [], false, 1, []⟩ : St).events ++ d ∧
      ∀ k, Event.initStart k ∈ d → Event.initEnd k ∈ d) := by
  refine ⟨?_, ?_, ?_, ?_, ?_⟩
  · exact (batch_error_policy _).1 (by decide)
  · exact (batch_error_policy _).2.1 "a" (by decide)
  · exact (batch_error_policy _).2.2.1 "b" "a" [] (by decide)
  · exact (batch_error_policy (exSt [("g", ⟨[], .make exInit, false⟩)])).2.2.2.2.1
      none _ () (by decide)
  · exact (batch_error_policy _).2.2.2.2.2.2 [["a"]]


theorem initOutcome_ne_resolveFailed (errs : List (String × String))
    (stuck : List String) (e : RErr) :
    initOutcome errs stuck ≠ .error (.resolveFailed e) := by
  rcases errs with _ | ⟨a, t⟩
  · by_cases hs : stuck.isEmpty <;> simp [initOutcome, hs]
  · rcases t with _ | ⟨b, t2⟩ <;> simp [initOutcome]

theorem filter_snapshot {c d : List (String × Instance)}
    (hd : ∀ p ∈ d, p.1 ∉ akeys c) :
    (c ++ d).filter (fun q => decide (q.1 ∈ c.map (·.1))) = c := by
  rw [List.filter_append]
  have h1 : c.filter (fun q => decide (q.1 ∈ c.map (·.1))) = c := by
    rw [List.filter_eq_self]
    intro p hp
    simp only [decide_eq_true_eq]
    exact List.mem_map.mpr ⟨p, hp, rfl⟩
  have h2 : d.filter (fun q => decide (q.1 ∈ c.map (·.1))) = [] := by
    rw [List.filter_eq_nil_iff]
    intro p hp
    simp only [decide_eq_true_eq]
    exact fun hm => hd p hp hm
  rw [h1, h2, List.append_nil]

/-- C2: when the resolve phase of preload fails synchronously, the rethrown
failure leaves the cache exactly as it was at the pre-preload snapshot —
every entry added during preload is removed and the pre-existing ones
remain — deferred-init mode is restored to off and no init flag was
touched, so a subsequent ordinary access to any rolled-back key re-invokes
its factory and, when the instance exposes a hook, fires initialization. -/
theorem preload_rollback {s t : St} {keys : Option (List String)} {e : RErr}
    (hdef : s.deferInit = false)
    (h : preload keys s = (.error (.resolveFailed e), t)) :
    t.cache = s.cache ∧ t.deferInit = false ∧ t.initState = s.initState ∧
    (∀ k fac ispec isp v u, alookup k t.factories = some fac →
      fac.behavior = .make ispec → ispec.onInitSpec = some isp →
      k ∉ akeys s.cache → k ∉ s.initState →
      resolveTop k t = (.ok v, u) →
      (∃ d, u.events = t.events ++ d ∧ Event.factoryCall k ∈ d ∧
        Event.initStart k ∈ d) ∧ k ∈ u.initState) := by
  rcases hp : resolveMany (s.factories.length + 2) (preloadKeys keys s) []
    { s with deferInit := true } with ⟨r, s2⟩
  have hfm := resolveMany_frame (s.factories.length + 2) (preloadKeys keys s)
    [] { s with deferInit := true }
  rw [hp] at hfm
  cases r with
  | ok u =>
    rw [preload_resolve_ok hp] at h
    have := congrArg Prod.fst h
    exact absurd this (initOutcome_ne_resolveFailed _ _ e)
  | error e2 =>
    rw [preload_resolve_err hp] at h
    have he2 : e2 = e := by
      have := congrArg Prod.fst h
      simpa using this
    subst he2
    have ht : t = { s2 with
        cache := List.filter (fun q => decide (q.1 ∈ s.cache.map (·.1))) s2.cache,
        deferInit := false } := by
      have := congrArg Prod.snd h
      simpa using this.symm
    obtain ⟨-, -, -, -, ⟨d, hc, hck⟩, -, -, -, hdi⟩ := hfm
    have hini2 : s2.initState = s.initState := hdi rfl
    have hcache : t.cache = s.cache := by
      rw [ht]
      show List.filter _ s2.cache = s.cache
      rw [hc]
      exact filter_snapshot (fun p hp2 => (hck p hp2).1)
    have hinit : t.initState = s.initState := by
      rw [ht]
      exact hini2
    refine ⟨hcache, by rw [ht], hinit, ?_⟩
    intro k fac ispec isp v u2 hfac hbeh hisp hkc hki hr
    have hca : alookup k t.cache = none := by
      rw [hcache]
      exact alookup_eq_none.mpr hkc
    have hcc : (if fac.transient then none else alookup k t.cache) = none := by
      cases fac.transient <;> simp [hca]
    have hdef2 : t.deferInit = false := by rw [ht]
    have hini3 : k ∉ t.initState := by
      rw [hinit]
      exact hki
    obtain ⟨hmark, ⟨d2, hd2, hfc, hst⟩, -⟩ :=
      resolve_miss_init hfac hcc hbeh hisp hdef2 hini3 hr
    exact ⟨⟨d2, hd2, hfc, hst⟩, hmark⟩

/-- Witness for C2: a registry with a good key and a throwing factory;
preload fails in the resolve phase, the good entry is evicted, and a later
access to good re-runs its factory and fires its hook. -/
theorem preload_rollback_witness :
    (preload none (exSt [("good", ⟨[], .make exInit, false⟩),
        ("bad", ⟨[], .throwErr, false⟩)])).2.cache =
      (exSt [("good", ⟨[], .make exInit, false⟩),
        ("bad", ⟨[], .throwErr, false⟩)]).cache ∧
    (preload none (exSt [("good", ⟨[], .make exInit, false⟩),
        ("bad", ⟨[], .throwErr, false⟩)])).2.deferInit = false ∧
    (preload none (exSt [("good", ⟨[], .make exInit, false⟩),
        ("bad", ⟨[], .throwErr, false⟩)])).2.initState =
      (exSt [("good", ⟨[], .make exInit, false⟩),
        ("bad", ⟨[], .throwErr, false⟩)]).initState ∧
    ((∃ d, (resolveTop "good" (preload none (exSt [("good", ⟨[], .make exInit, false⟩),
          ("bad", ⟨[], .throwErr, false⟩)])).2).2.events =
        (preload none (exSt [("good", ⟨[], .make exInit, false⟩),
          ("bad", ⟨[], .throwErr, false⟩)])).2.events ++ d ∧
        Event.factoryCall "good" ∈ d ∧ Event.initStart "good" ∈ d) ∧
      "good" ∈ (resolveTop "good" (preload none (exSt [("good", ⟨[], .make exInit, false⟩),
        ("bad", ⟨[], .throwErr, false⟩)])).2).2.initState) := by
  have h := @preload_rollback (exSt [("good", ⟨[], .make exInit, false⟩),
      ("bad", ⟨[], .throwErr, false⟩)])
    (preload none (exSt [("good", ⟨[], .make exInit, false⟩),
      ("bad", ⟨[], .throwErr, false⟩)])).2
    none (.factoryError "bad" ["bad"]) (by decide) (by decide)
  refine ⟨h.1, h.2.1, h.2.2.1, ?_⟩
  exact h.2.2.2 "good" ⟨[], .make exInit, false⟩ exInit ⟨false, false, ""⟩
    ⟨1, exInit⟩ _ (by decide) (by decide) (by decide) (by decide) (by decide)
    (by decide)


theorem cohAt_mono {s t : St} {x : String} (h : CohAt s x)
    (hf : t.factories = s.factories)
    (hc : ∀ y, y ∈ akeys s.cache → y ∈ akeys t.cache) : CohAt t x := by
  intro z zfac hreach hz htr
  rw [hf] at hreach hz
  exact hc z (h z zfac hreach hz htr)

theorem resolveFuel_ok_nt_cached : ∀ (f : Nat) {k : String} {ch : List String}
    {w w' : St} {val : Instance} {fac : Factory},
    resolveFuel f k ch w = (.ok val, w') →
    alookup k w.factories = some fac → fac.transient = false →
    k ∈ akeys w'.cache := by
  intro f k ch w w' val fac h hfac htr
  match f with
  | 0 =>
    rw [resolveFuel_zero] at h
    simp at h
  | f+1 =>
    rcases hcc : (if fac.transient then none else alookup k w.cache) with _ | v
    · by_cases hres : k ∈ w.resolving
      · rw [resolveFuel_circ f ch hfac hcc hres] at h
        simp at h
      · rcases hp : resolveMany f fac.deps (ch ++ [k]) (enter k w) with ⟨dres, s2⟩
        cases dres with
        | error e =>
          rw [resolveFuel_enter_err hfac hcc hres hp] at h
          simp at h
        | ok u =>
          cases u
          rw [resolveFuel_enter_ok hfac hcc hres hp] at h
          rcases hbeh : fac.behavior with ispec | _ | _
          · have hw' : w' = leave k (finish k ch fac s2).2 := by
              simpa using (congrArg Prod.snd h).symm
            rw [hw']
            show k ∈ akeys (finish k ch fac s2).2.cache
            rw [finish_make_cache k ch s2 hbeh htr, akeys_append]
            simp [akeys]
          · have h1 := congrArg Prod.fst h
            simp [finish, hbeh] at h1
          · have h1 := congrArg Prod.fst h
            simp [finish, hbeh] at h1
    · rw [resolveFuel_hit f ch hfac hcc] at h
      have hw' : w' = w := by simpa using (congrArg Prod.snd h).symm
      rw [htr] at hcc
      simp only [Bool.false_eq_true, if_false] at hcc
      rw [hw']
      rw [← alookup_isSome_iff, hcc]
      rfl

theorem resolve_ok_support : ∀ (f : Nat) {k : String} {ch : List String}
    {w w' : St} {val : Instance} {fac : Factory},
    resolveFuel f k ch w = (.ok val, w') →
    alookup k w.factories = some fac →
    (if fac.transient then none else alookup k w.cache) = none →
    ∀ z zfac, StatReachT w.factories k z → alookup z w.factories = some zfac →
      zfac.transient = false → z ∈ akeys w'.cache := by
  intro f
  induction f with
  | zero =>
    intro k ch w w' val fac h hfac hcc z zfac hreach hz htr
    rw [resolveFuel_zero] at h
    simp at h
  | succ f ih =>
    have hmany : ∀ (ds : List String) (ch : List String) (w w' : St),
        resolveMany f ds ch w = (.ok (), w') →
        ∀ d ∈ ds,
          (∀ dfac, alookup d w.factories = some dfac → dfac.transient = false →
            d ∈ akeys w'.cache) ∧
          (∀ dfac, alookup d w.factories = some dfac → dfac.transient = true →
            ∀ z zfac, StatReachT w.factories d z →
              alookup z w.factories = some zfac → zfac.transient = false →
              z ∈ akeys w'.cache) := by
      intro ds
      induction ds with
      | nil =>
        intro ch w w' h d hd
        simp at hd
      | cons a t iht =>
        intro ch w w' h d hd
        rcases ha : resolveFuel f a ch w with ⟨ra, w1⟩
        cases ra with
        | error e =>
          rw [resolveMany_cons_err t ha] at h
          simp at h
        | ok va =>
          rw [resolveMany_cons_ok t ha] at h
          have hfr1 := resolveFuel_frame f a ch w
          rw [ha] at hfr1
          have hfr2 := resolveMany_frame f t ch w1
          rw [h] at hfr2
          have hmono : ∀ y, y ∈ akeys w1.cache → y ∈ akeys w'.cache := by
            obtain ⟨-, -, -, -, ⟨d2, hc2, -⟩, -⟩ := hfr2
            intro y hy
            rw [hc2, akeys_append]
            exact List.mem_append.mpr (Or.inl hy)
          rcases List.mem_cons.mp hd with hda | hdt
          · subst hda
            constructor
            · intro dfac hdf hdtr
              exact hmono d (resolveFuel_ok_nt_cached f ha hdf hdtr)
            · intro dfac hdf hdtr z zfac hreach hz htr
              have hccd : (if dfac.transient then none
                  else alookup d w.cache) = none := by
                rw [hdtr]
                simp
              exact hmono z (ih ha hdf hccd z zfac hreach hz htr)
          · have hfeq : w1.factories = w.factories := hfr1.1
            have := iht ch w1 w' h d hdt
            constructor
            · intro dfac hdf hdtr
              exact this.1 dfac (by rw [hfeq, hdf]) hdtr
            · intro dfac hdf hdtr z zfac hreach hz htr
              exact this.2 dfac (by rw [hfeq, hdf]) hdtr z zfac
                (by rw [hfeq]; exact hreach) (by rw [hfeq, hz]) htr
    intro k ch w w' val fac h hfac hcc z zfac hreach hz htr
    by_cases hres : k ∈ w.resolving
    · rw [resolveFuel_circ f ch hfac hcc hres] at h
      simp at h
    · rcases hp : resolveMany f fac.deps (ch ++ [k]) (enter k w) with ⟨dres, s2⟩
      cases dres with
      | error e =>
        rw [resolveFuel_enter_err hfac hcc hres hp] at h
        simp at h
      | ok u =>
        cases u
        rw [resolveFuel_enter_ok hfac hcc hres hp] at h
        rcases hbeh : fac.behavior with ispec | _ | _
        · have hw' : w' = leave k (finish k ch fac s2).2 := by
            simpa using (congrArg Prod.snd h).symm
          have hfin : ∀ y, y ∈ akeys s2.cache → y ∈ akeys w'.cache := by
            intro y hy
            rw [hw']
            show y ∈ akeys (finish k ch fac s2).2.cache
            by_cases htrf : fac.transient
            · rw [finish_make_cache_transient k ch s2 hbeh htrf]
              exact hy
            · rw [finish_make_cache k ch s2 hbeh (by simpa using htrf), akeys_append]
              exact List.mem_append.mpr (Or.inl hy)
          have henf : (enter k w).factories = w.factories := rfl
          have hm := hmany fac.deps (ch ++ [k]) (enter k w) s2 hp
          cases hreach with
          | base hfac2 hdep =>
            rename_i fac2
            have hfeq : fac2 = fac := by
              rw [hfac] at hfac2
              cases hfac2
              rfl
            subst hfeq
            exact hfin z ((hm z hdep).1 zfac (by rw [henf, hz]) htr)
          | thru hfac2 hdep hwfac hwtr hre =>
            rename_i w1 fac2 wfac
            have hfeq : fac2 = fac := by
              rw [hfac] at hfac2
              cases hfac2
              rfl
            subst hfeq
            exact hfin z ((hm w1 hdep).2 wfac (by rw [henf, hwfac]) hwtr z zfac
              (by rw [henf]; exact hre) (by rw [henf, hz]) htr)
        · have h1 := congrArg Prod.fst h
          simp [finish, hbeh] at h1
        · have h1 := congrArg Prod.fst h
          simp [finish, hbeh] at h1


theorem resolve_gains_coherent : ∀ (f : Nat) {k : String} {ch : List String}
    {w w' : St} {r : Except RErr Instance},
    resolveFuel f k ch w = (r, w') →
    ∀ x, x ∈ akeys w'.cache → x ∉ akeys w.cache → CohAt w' x := by
  intro f
  induction f with
  | zero =>
    intro k ch w w' r h x hx hnx
    rw [resolveFuel_zero] at h
    have hw : w' = w := by simpa using (congrArg Prod.snd h).symm
    rw [hw] at hx
    exact absurd hx hnx
  | succ f ih =>
    have hmany : ∀ (ds : List String) (ch : List String) (w w' : St)
        (r : Except RErr Unit),
        resolveMany f ds ch w = (r, w') →
        ∀ x, x ∈ akeys w'.cache → x ∉ akeys w.cache → CohAt w' x := by
      intro ds
      induction ds with
      | nil =>
        intro ch w w' r h x hx hnx
        have hw : w' = w := by
          rw [resolveMany_nil] at h
          simpa using (congrArg Prod.snd h).symm
        rw [hw] at hx
        exact absurd hx hnx
      | cons a t iht =>
        intro ch w w' r h x hx hnx
        rcases ha : resolveFuel f a ch w with ⟨ra, w1⟩
        cases ra with
        | error e =>
          rw [resolveMany_cons_err t ha] at h
          have hw : w' = w1 := by simpa using (congrArg Prod.snd h).symm
          subst hw
          exact ih ha x hx hnx
        | ok va =>
          rw [resolveMany_cons_ok t ha] at h
          have hfr1 := resolveFuel_frame f a ch w
          rw [ha] at hfr1
          have hfr2 := resolveMany_frame f t ch w1
          rw [h] at hfr2
          by_cases hx1 : x ∈ akeys w1.cache
          · have hco := ih ha x hx1 hnx
            refine cohAt_mono hco hfr2.1 ?_
            obtain ⟨-, -, -, -, ⟨d2, hc2, -⟩, -⟩ := hfr2
            intro y hy
            rw [hc2, akeys_append]
            exact List.mem_append.mpr (Or.inl hy)
          · exact iht ch w1 w' r h x hx hx1
    intro k ch w w' r h x hx hnx
    rcases hfac : alookup k w.factories with _ | fac
    · rw [resolveFuel_notFound f ch hfac] at h
      have hw : w' = w := by simpa using (congrArg Prod.snd h).symm
      rw [hw] at hx
      exact absurd hx hnx
    · rcases hcc : (if fac.transient then none else alookup k w.cache) with _ | v
      · by_cases hres : k ∈ w.resolving
        · rw [resolveFuel_circ f ch hfac hcc hres] at h
          have hw : w' = w := by simpa using (congrArg Prod.snd h).symm
          rw [hw] at hx
          exact absurd hx hnx
        · rcases hp : resolveMany f fac.deps (ch ++ [k]) (enter k w) with ⟨dres, s2⟩
          cases dres with
          | error e =>
            rw [resolveFuel_enter_err hfac hcc hres hp] at h
            have hw : w' = leave k s2 := by
              simpa using (congrArg Prod.snd h).symm
            subst hw
            have : CohAt s2 x := hmany fac.deps (ch ++ [k]) (enter k w) s2 _ hp x hx hnx
            exact this
          | ok u =>
            cases u
            have horig : resolveFuel (f+1) k ch w = (r, w') := h
            rw [resolveFuel_enter_ok hfac hcc hres hp] at h
            have hw : w' = leave k (finish k ch fac s2).2 := by
              simpa using (congrArg Prod.snd h).symm
            rcases hbeh : fac.behavior with ispec | _ | _
            · have hcacheEq : ∀ y, y ∈ akeys s2.cache → y ∈ akeys w'.cache := by
                intro y hy
                rw [hw]
                show y ∈ akeys (finish k ch fac s2).2.cache
                by_cases htrf : fac.transient
                · rw [finish_make_cache_transient k ch s2 hbeh htrf]
                  exact hy
                · rw [finish_make_cache k ch s2 hbeh (by simpa using htrf),
                    akeys_append]
                  exact List.mem_append.mpr (Or.inl hy)
              have hfeq : w'.factories = s2.factories := by
                rw [hw]
                show (finish k ch fac s2).2.factories = s2.factories
                exact (finish_state k ch fac s2).1
              by_cases hxk : x = k
              · subst hxk
                intro z zfac hreach hz htr
                have hr : r = Except.ok (⟨s2.fresh, ispec⟩ : Instance) := by
                  have h1 := congrArg Prod.fst h
                  rw [finish_make_fst x ch s2 hbeh] at h1
                  exact h1.symm
                have hok : resolveFuel (f+1) x ch w =
                    (.ok (⟨s2.fresh, ispec⟩ : Instance), w') := by
                  rw [horig, hr]
                have hfeq2 : w'.factories = w.factories := by
                  have hfr := resolveFuel_frame (f+1) x ch w
                  rw [horig] at hfr
                  exact hfr.1
                rw [hfeq2] at hreach hz
                exact resolve_ok_support (f+1) hok hfac hcc z zfac hreach hz htr
              · by_cases hx2 : x ∈ akeys s2.cache
                · have hco : CohAt s2 x :=
                    hmany fac.deps (ch ++ [k]) (enter k w) s2 _ hp x hx2 hnx
                  exact cohAt_mono hco hfeq hcacheEq
                · exfalso
                  rw [hw] at hx
                  by_cases htrf : fac.transient
                  · rw [show (leave k (finish k ch fac s2).2).cache
                        = (finish k ch fac s2).2.cache from rfl,
                      finish_make_cache_transient k ch s2 hbeh htrf] at hx
                    exact hx2 hx
                  · rw [show (leave k (finish k ch fac s2).2).cache
                        = (finish k ch fac s2).2.cache from rfl,
                      finish_make_cache k ch s2 hbeh (by simpa using htrf),
                      akeys_append] at hx
                    rcases List.mem_append.mp hx with hm | hm
                    · exact hx2 hm
                    · simp [akeys] at hm
                      exact hxk hm
            · have hw2 : w' = leave k s2 := by
                simp only [finish, hbeh] at h
                simpa using (congrArg Prod.snd h).symm
              subst hw2
              exact hmany fac.deps (ch ++ [k]) (enter k w) s2 _ hp x hx hnx
            · have hw2 : w' = leave k s2 := by
                simp only [finish, hbeh] at h
                simpa using (congrArg Prod.snd h).symm
              subst hw2
              exact hmany fac.deps (ch ++ [k]) (enter k w) s2 _ hp x hx hnx
      · rw [resolveFuel_hit f ch hfac hcc] at h
        have hw : w' = w := by simpa using (congrArg Prod.snd h).symm
        rw [hw] at hx
        exact absurd hx hnx

/-- The cache gains of a successful cache-missing resolution lie in any
predicate that holds at the resolved key (or at its reach targets when the
key is transient) and is closed under one static-reachability step at keys
outside a fixed subset of the initial cache keys. Instantiated with
membership in a larger coherent cache, it bounds what a run that a hit would
skip could have added. -/
theorem resolve_ok_gains_reach {P : String → Prop}
    {F : List (String × Factory)} {C : List String}
    (hclosure : ∀ x, P x → x ∉ C → ∀ z zfac, StatReachT F x z →
      alookup z F = some zfac → zfac.transient = false → P z) :
    ∀ (f : Nat) {k : String} {ch : List String} {v v' : St} {val : Instance}
      {fac : Factory},
      resolveFuel f k ch v = (.ok val, v') →
      v.factories = F →
      (∀ y, y ∈ C → y ∈ akeys v.cache) →
      alookup k F = some fac →
      (if fac.transient then none else alookup k v.cache) = none →
      (fac.transient = false → P k) →
      (fac.transient = true → ∀ z zfac, StatReachT F k z →
        alookup z F = some zfac → zfac.transient = false → P z) →
      ∀ x, x ∈ akeys v'.cache → x ∉ akeys v.cache → P x := by
  intro f
  induction f with
  | zero =>
    intro k ch v v' val fac h hF hC hfac hcc hNT hT x hx hnx
    rw [resolveFuel_zero] at h
    simp at h
  | succ f ih =>
    have hmany : ∀ (ds : List String) (ch : List String) (v v' : St),
        resolveMany f ds ch v = (.ok (), v') →
        v.factories = F →
        (∀ y, y ∈ C → y ∈ akeys v.cache) →
        (∀ d ∈ ds,
          (∀ dfac, alookup d F = some dfac → dfac.transient = false → P d) ∧
          (∀ dfac, alookup d F = some dfac → dfac.transient = true →
            ∀ z zfac, StatReachT F d z → alookup z F = some zfac →
              zfac.transient = false → P z)) →
        ∀ x, x ∈ akeys v'.cache → x ∉ akeys v.cache → P x := by
      intro ds
      induction ds with
      | nil =>
        intro ch v v' h hF hC hD x hx hnx
        rw [resolveMany_nil] at h
        have hv : v' = v := by simpa using (congrArg Prod.snd h).symm
        rw [hv] at hx
        exact absurd hx hnx
      | cons a t iht =>
        intro ch v v' h hF hC hD x hx hnx
        rcases ha : resolveFuel f a ch v with ⟨ra, v1⟩
        cases ra with
        | error e =>
          rw [resolveMany_cons_err t ha] at h
          simp at h
        | ok va =>
          rw [resolveMany_cons_ok t ha] at h
          have hfr1 := resolveFuel_frame f a ch v
          rw [ha] at hfr1
          have hF1 : v1.factories = F := by rw [hfr1.1, hF]
          have hC1 : ∀ y, y ∈ C → y ∈ akeys v1.cache := by
            obtain ⟨-, -, -, -, ⟨d1, hc1, -⟩, -⟩ := hfr1
            intro y hy
            rw [hc1, akeys_append]
            exact List.mem_append.mpr (Or.inl (hC y hy))
          by_cases hx1 : x ∈ akeys v1.cache
          · have hga : ∃ afac, alookup a v.factories = some afac := by
              rcases hga : alookup a v.factories with _ | afac
              · match f, ha with
                | 0, ha => rw [resolveFuel_zero] at ha; simp at ha
                | f+1, ha =>
                  rw [resolveFuel_notFound f ch hga] at ha
                  simp at ha
              · exact ⟨afac, rfl⟩
            obtain ⟨afac, hga⟩ := hga
            rcases hcca : (if afac.transient then none else alookup a v.cache)
              with _ | w
            · exact ih ha hF hC (by rw [← hF]; exact hga) hcca
                ((hD a (List.mem_cons_self a t)).1 afac (by rw [← hF]; exact hga))
                ((hD a (List.mem_cons_self a t)).2 afac (by rw [← hF]; exact hga))
                x hx1 hnx
            · match f, ha with
              | 0, ha => rw [resolveFuel_zero] at ha; simp at ha
              | f+1, ha =>
                rw [resolveFuel_hit f ch hga hcca] at ha
                have hv1 : v1 = v := by simpa using (congrArg Prod.snd ha).symm
                rw [hv1] at hx1
                exact absurd hx1 hnx
          · exact iht ch v1 v' h hF1 hC1
              (fun d hd => hD d (List.mem_cons_of_mem a hd)) x hx hx1
    intro k ch v v' val fac h hF hC hfac hcc hNT hT x hx hnx
    have hfacv : alookup k v.factories = some fac := by rw [hF]; exact hfac
    by_cases hres : k ∈ v.resolving
    · rw [resolveFuel_circ f ch hfacv hcc hres] at h
      simp at h
    · rcases hp : resolveMany f fac.deps (ch ++ [k]) (enter k v) with ⟨dres, s2⟩
      cases dres with
      | error e =>
        rw [resolveFuel_enter_err hfacv hcc hres hp] at h
        simp at h
      | ok u =>
        cases u
        rw [resolveFuel_enter_ok hfacv hcc hres hp] at h
        have hD : ∀ d ∈ fac.deps,
            (∀ dfac, alookup d F = some dfac → dfac.transient = false → P d) ∧
            (∀ dfac, alookup d F = some dfac → dfac.transient = true →
              ∀ z zfac, StatReachT F d z → alookup z F = some zfac →
                zfac.transient = false → P z) := by
          intro d hd
          by_cases htrf : fac.transient = true
          · exact ⟨fun dfac hdf hdtr => hT htrf d dfac (.base hfac hd) hdf hdtr,
              fun dfac hdf hdtr z zfac hre hz hztr =>
                hT htrf z zfac (.thru hfac hd hdf hdtr hre) hz hztr⟩
          · have htrf2 : fac.transient = false := by simpa using htrf
            have hPk : P k := hNT htrf2
            have hkC : k ∉ C := by
              intro hkc
              have hkv : k ∈ akeys v.cache := hC k hkc
              rw [if_neg (by simp [htrf2])] at hcc
              exact (alookup_eq_none.mp hcc) hkv
            exact ⟨fun dfac hdf hdtr =>
                hclosure k hPk hkC d dfac (.base hfac hd) hdf hdtr,
              fun dfac hdf hdtr z zfac hre hz hztr =>
                hclosure k hPk hkC z zfac (.thru hfac hd hdf hdtr hre) hz hztr⟩
        have hm := hmany fac.deps (ch ++ [k]) (enter k v) s2 hp hF hC hD
        rcases hbeh : fac.behavior with ispec | _ | _
        · have hw' : v' = leave k (finish k ch fac s2).2 := by
            simpa using (congrArg Prod.snd h).symm
          rw [hw'] at hx
          by_cases htrf : fac.transient = true
          · rw [show (leave k (finish k ch fac s2).2).cache
                = (finish k ch fac s2).2.cache from rfl,
              finish_make_cache_transient k ch s2 hbeh htrf] at hx
            exact hm x hx hnx
          · have htrf2 : fac.transient = false := by simpa using htrf
            rw [show (leave k (finish k ch fac s2).2).cache
                = (finish k ch fac s2).2.cache from rfl,
              finish_make_cache k ch s2 hbeh htrf2, akeys_append] at hx
            rcases List.mem_append.mp hx with hm2 | hm2
            · exact hm x hm2 hnx
            · have hxk : x = k := by simpa [akeys] using hm2
              rw [hxk]
              exact hNT htrf2
        · have h1 := congrArg Prod.fst h
          simp [finish, hbeh] at h1
        · have h1 := congrArg Prod.fst h
          simp [finish, hbeh] at h1

/-- A failed resolution never caches the key it was asked for: every exit
path either leaves the cache alone or records only keys that were not
mid-resolution, and the requested key is marked mid-resolution while its
subtree runs. -/
theorem resolve_err_not_self : ∀ (f : Nat) {k : String} {ch : List String}
    {v v1 : St} {e : RErr},
    resolveFuel f k ch v = (.error e, v1) → k ∉ akeys v.cache →
    k ∉ akeys v1.cache := by
  intro f k ch v v1 e h hk
  match f with
  | 0 =>
    rw [resolveFuel_zero] at h
    have hv : v1 = v := by simpa using (congrArg Prod.snd h).symm
    rw [hv]
    exact hk
  | f+1 =>
    rcases hfac : alookup k v.factories with _ | fac
    · rw [resolveFuel_notFound f ch hfac] at h
      have hv : v1 = v := by simpa using (congrArg Prod.snd h).symm
      rw [hv]
      exact hk
    · rcases hcc : (if fac.transient then none else alookup k v.cache) with _ | w
      · by_cases hres : k ∈ v.resolving
        · rw [resolveFuel_circ f ch hfac hcc hres] at h
          have hv : v1 = v := by simpa using (congrArg Prod.snd h).symm
          rw [hv]
          exact hk
        · rcases hp : resolveMany f fac.deps (ch ++ [k]) (enter k v)
            with ⟨dres, s2⟩
          have hfr := resolveMany_frame f fac.deps (ch ++ [k]) (enter k v)
          rw [hp] at hfr
          have hs2 : k ∉ akeys s2.cache := by
            obtain ⟨-, -, -, -, ⟨d, hc, hd⟩, -⟩ := hfr
            rw [show (enter k v).cache = v.cache from rfl] at hc
            rw [hc, akeys_append]
            intro hmem
            rcases List.mem_append.mp hmem with hm | hm
            · exact hk hm
            · obtain ⟨p, hp2, hpk⟩ := List.mem_map.mp hm
              have := (hd p hp2).2.1
              rw [hpk] at this
              exact this (List.mem_cons_self k v.resolving)
          cases dres with
          | error e2 =>
            rw [resolveFuel_enter_err hfac hcc hres hp] at h
            have hv : v1 = leave k s2 := by
              simpa using (congrArg Prod.snd h).symm
            rw [hv]
            exact hs2
          | ok u =>
            cases u
            rw [resolveFuel_enter_ok hfac hcc hres hp] at h
            rcases hbeh : fac.behavior with ispec | _ | _
            · have h1 := congrArg Prod.fst h
              rw [finish_make_fst k ch s2 hbeh] at h1
              simp at h1
            · simp only [finish, hbeh] at h
              have hv : v1 = leave k s2 := by
                simpa using (congrArg Prod.snd h).symm
              rw [hv]
              exact hs2
            · simp only [finish, hbeh] at h
              have hv : v1 = leave k s2 := by
                simpa using (congrArg Prod.snd h).symm
              rw [hv]
              exact hs2
      · rw [resolveFuel_hit f ch hfac hcc] at h
        simp at h

/-- Success simulation: a resolution that succeeds from one state also
succeeds from any state with the same registry and mid-resolution set and a
larger coherent cache. The replay ends with at least the cache keys of the
original run, its extra keys stay coherent, and every key it holds was
already present before the replay or is held by the original final state. -/
theorem resolve_sim_ok : ∀ (f : Nat) {k : String} {ch : List String}
    {v v' u : St} {val : Instance},
    resolveFuel f k ch v = (.ok val, v') →
    u.factories = v.factories →
    u.resolving = v.resolving →
    (∀ y, y ∈ akeys v.cache → y ∈ akeys u.cache) →
    (∀ x, x ∈ akeys u.cache → x ∉ akeys v.cache → CohAt u x) →
    ∃ val2 u2, resolveFuel f k ch u = (.ok val2, u2) ∧
      u2.factories = v'.factories ∧
      u2.resolving = v'.resolving ∧
      (∀ y, y ∈ akeys v'.cache → y ∈ akeys u2.cache) ∧
      (∀ x, x ∈ akeys u2.cache → x ∉ akeys v'.cache → CohAt u2 x) ∧
      (∀ x, x ∈ akeys u2.cache → x ∈ akeys u.cache ∨ x ∈ akeys v'.cache) := by
  intro f
  induction f with
  | zero =>
    intro k ch v v' u val h hfu hru hsub hcoh
    rw [resolveFuel_zero] at h
    simp at h
  | succ f ih =>
    have hmany : ∀ (ds : List String) (ch : List String) (v v' u : St),
        resolveMany f ds ch v = (.ok (), v') →
        u.factories = v.factories →
        u.resolving = v.resolving →
        (∀ y, y ∈ akeys v.cache → y ∈ akeys u.cache) →
        (∀ x, x ∈ akeys u.cache → x ∉ akeys v.cache → CohAt u x) →
        ∃ u2, resolveMany f ds ch u = (.ok (), u2) ∧
          u2.factories = v'.factories ∧
          u2.resolving = v'.resolving ∧
          (∀ y, y ∈ akeys v'.cache → y ∈ akeys u2.cache) ∧
          (∀ x, x ∈ akeys u2.cache → x ∉ akeys v'.cache → CohAt u2 x) ∧
          (∀ x, x ∈ akeys u2.cache → x ∈ akeys u.cache ∨ x ∈ akeys v'.cache) := by
      intro ds
      induction ds with
      | nil =>
        intro ch v v' u h hfu hru hsub hcoh
        rw [resolveMany_nil] at h
        have hv : v' = v := by simpa using (congrArg Prod.snd h).symm
        subst hv
        exact ⟨u, resolveMany_nil f ch u, hfu, hru, hsub, hcoh,
          fun x hx => Or.inl hx⟩
      | cons a t iht =>
        intro ch v v' u h hfu hru hsub hcoh
        rcases ha : resolveFuel f a ch v with ⟨ra, v1⟩
        cases ra with
        | error e =>
          rw [resolveMany_cons_err t ha] at h
          simp at h
        | ok va =>
          rw [resolveMany_cons_ok t ha] at h
          obtain ⟨va2, u1, hau, hf1, hr1, hsub1, hcoh1, hg1⟩ :=
            ih ha hfu hru hsub hcoh
          obtain ⟨u2, htu, hf2, hr2, hsub2, hcoh2, hg2⟩ :=
            iht ch v1 v' u1 h hf1 hr1 hsub1 hcoh1
          have hfrt := resolveMany_frame f t ch v1
          rw [h] at hfrt
          have hmono1 : ∀ y, y ∈ akeys v1.cache → y ∈ akeys v'.cache := by
            obtain ⟨-, -, -, -, ⟨d2, hc2, -⟩, -⟩ := hfrt
            intro y hy
            rw [hc2, akeys_append]
            exact List.mem_append.mpr (Or.inl hy)
          refine ⟨u2, ?_, hf2, hr2, hsub2, hcoh2, ?_⟩
          · rw [resolveMany_cons_ok t hau]
            exact htu
          · intro x hx
            rcases hg2 x hx with hx1 | hx1
            · rcases hg1 x hx1 with hx0 | hx0
              · exact Or.inl hx0
              · exact Or.inr (hmono1 x hx0)
            · exact Or.inr hx1
    intro k ch v v' u val h hfu hru hsub hcoh
    have horig := h
    rcases hfac : alookup k v.factories with _ | fac
    · rw [resolveFuel_notFound f ch hfac] at h
      simp at h
    · have hfacu : alookup k u.factories = some fac := by rw [hfu]; exact hfac
      rcases hcc : (if fac.transient then none else alookup k v.cache) with _ | w
      · by_cases hres : k ∈ v.resolving
        · rw [resolveFuel_circ f ch hfac hcc hres] at h
          simp at h
        · have hresu : k ∉ u.resolving := by rw [hru]; exact hres
          rcases hp : resolveMany f fac.deps (ch ++ [k]) (enter k v)
            with ⟨dres, s2⟩
          cases dres with
          | error e =>
            rw [resolveFuel_enter_err hfac hcc hres hp] at h
            simp at h
          | ok u0 =>
            cases u0
            rw [resolveFuel_enter_ok hfac hcc hres hp] at h
            rcases hbeh : fac.behavior with ispec | _ | _
            · have hw' : v' = leave k (finish k ch fac s2).2 := by
                simpa using (congrArg Prod.snd h).symm
              have henterf : (enter k u).factories = (enter k v).factories := hfu
              have henterr : (enter k u).resolving = (enter k v).resolving := by
                show k :: u.resolving = k :: v.resolving
                rw [hru]
              have hentersub : ∀ y, y ∈ akeys (enter k v).cache →
                  y ∈ akeys (enter k u).cache := hsub
              have hentercoh : ∀ x, x ∈ akeys (enter k u).cache →
                  x ∉ akeys (enter k v).cache → CohAt (enter k u) x := hcoh
              by_cases htrf : fac.transient = true
              · obtain ⟨u2, hpu, hf2, hr2, hsub2, hcoh2, hg2⟩ :=
                  hmany fac.deps (ch ++ [k]) (enter k v) s2 (enter k u) hp
                    henterf henterr hentersub hentercoh
                have hccu : (if fac.transient then none
                    else alookup k u.cache) = none := by simp [htrf]
                have heq := resolveFuel_enter_ok hfacu hccu hresu hpu
                rw [finish_make_fst k ch u2 hbeh] at heq
                have hcv : (leave k (finish k ch fac s2).2).cache = s2.cache :=
                  finish_make_cache_transient k ch s2 hbeh htrf
                have hcu : (leave k (finish k ch fac u2).2).cache = u2.cache :=
                  finish_make_cache_transient k ch u2 hbeh htrf
                refine ⟨⟨u2.fresh, ispec⟩, leave k (finish k ch fac u2).2, heq,
                  ?_, ?_, ?_, ?_, ?_⟩
                · show (finish k ch fac u2).2.factories = v'.factories
                  rw [hw']
                  show (finish k ch fac u2).2.factories
                    = (finish k ch fac s2).2.factories
                  rw [(finish_state k ch fac u2).1, (finish_state k ch fac s2).1,
                    hf2]
                · show ((finish k ch fac u2).2.resolving).erase k = v'.resolving
                  rw [hw']
                  show ((finish k ch fac u2).2.resolving).erase k
                    = ((finish k ch fac s2).2.resolving).erase k
                  rw [(finish_state k ch fac u2).2.1,
                    (finish_state k ch fac s2).2.1, hr2]
                · intro y hy
                  rw [hw', hcv] at hy
                  rw [hcu]
                  exact hsub2 y hy
                · intro x hx hnx
                  rw [hcu] at hx
                  rw [hw', hcv] at hnx
                  refine cohAt_mono (hcoh2 x hx hnx) ?_ ?_
                  · show (finish k ch fac u2).2.factories = u2.factories
                    rw [(finish_state k ch fac u2).1]
                  · intro y hy
                    rw [hcu]
                    exact hy
                · intro x hx
                  rw [hcu] at hx
                  rcases hg2 x hx with hx0 | hx0
                  · exact Or.inl hx0
                  · rw [hw', hcv]
                    exact Or.inr hx0
              · have htrf2 : fac.transient = false := by simpa using htrf
                rcases hlu : alookup k u.cache with _ | w2
                · obtain ⟨u2, hpu, hf2, hr2, hsub2, hcoh2, hg2⟩ :=
                    hmany fac.deps (ch ++ [k]) (enter k v) s2 (enter k u) hp
                      henterf henterr hentersub hentercoh
                  have hccu : (if fac.transient then none
                      else alookup k u.cache) = none := by simp [htrf2, hlu]
                  have heq := resolveFuel_enter_ok hfacu hccu hresu hpu
                  rw [finish_make_fst k ch u2 hbeh] at heq
                  have hcv : (leave k (finish k ch fac s2).2).cache
                      = s2.cache ++ [(k, ⟨s2.fresh, ispec⟩)] :=
                    finish_make_cache k ch s2 hbeh htrf2
                  have hcu : (leave k (finish k ch fac u2).2).cache
                      = u2.cache ++ [(k, ⟨u2.fresh, ispec⟩)] :=
                    finish_make_cache k ch u2 hbeh htrf2
                  refine ⟨⟨u2.fresh, ispec⟩, leave k (finish k ch fac u2).2, heq,
                    ?_, ?_, ?_, ?_, ?_⟩
                  · show (finish k ch fac u2).2.factories = v'.factories
                    rw [hw']
                    show (finish k ch fac u2).2.factories
                      = (finish k ch fac s2).2.factories
                    rw [(finish_state k ch fac u2).1,
                      (finish_state k ch fac s2).1, hf2]
                  · show ((finish k ch fac u2).2.resolving).erase k
                      = v'.resolving
                    rw [hw']
                    show ((finish k ch fac u2).2.resolving).erase k
                      = ((finish k ch fac s2).2.resolving).erase k
                    rw [(finish_state k ch fac u2).2.1,
                      (finish_state k ch fac s2).2.1, hr2]
                  · intro y hy
                    rw [hw', hcv, akeys_append] at hy
                    rw [hcu, akeys_append]
                    rcases List.mem_append.mp hy with hy0 | hy0
                    · exact List.mem_append.mpr (Or.inl (hsub2 y hy0))
                    · exact List.mem_append.mpr (Or.inr (by simpa [akeys]
                        using hy0))
                  · intro x hx hnx
                    rw [hcu, akeys_append] at hx
                    rw [hw', hcv, akeys_append] at hnx
                    have hxk : x ≠ k := by
                      intro hxk
                      exact hnx (List.mem_append.mpr (Or.inr (by
                        simp [akeys, hxk])))
                    have hx0 : x ∈ akeys u2.cache := by
                      rcases List.mem_append.mp hx with hx0 | hx0
                      · exact hx0
                      · exact absurd (by simpa [akeys] using hx0) hxk
                    have hnx0 : x ∉ akeys s2.cache := fun hc =>
                      hnx (List.mem_append.mpr (Or.inl hc))
                    refine cohAt_mono (hcoh2 x hx0 hnx0) ?_ ?_
                    · show (finish k ch fac u2).2.factories = u2.factories
                      rw [(finish_state k ch fac u2).1]
                    · intro y hy
                      rw [hcu, akeys_append]
                      exact List.mem_append.mpr (Or.inl hy)
                  · intro x hx
                    rw [hcu, akeys_append] at hx
                    rcases List.mem_append.mp hx with hx0 | hx0
                    · rcases hg2 x hx0 with hx1 | hx1
                      · exact Or.inl hx1
                      · refine Or.inr ?_
                        rw [hw', hcv, akeys_append]
                        exact List.mem_append.mpr (Or.inl hx1)
                    · refine Or.inr ?_
                      rw [hw', hcv, akeys_append]
                      refine List.mem_append.mpr (Or.inr ?_)
                      simpa [akeys] using hx0
                · have hku : k ∈ akeys u.cache := by
                    rw [← alookup_isSome_iff, hlu]
                    rfl
                  have hccu : (if fac.transient then none
                      else alookup k u.cache) = some w2 := by simp [htrf2, hlu]
                  have heq := resolveFuel_hit f ch hfacu hccu
                  have hfr := resolveFuel_frame (f+1) k ch v
                  rw [horig] at hfr
                  have hclosure : ∀ x, (fun y => y ∈ akeys u.cache) x →
                      x ∉ akeys v.cache → ∀ z zfac,
                      StatReachT v.factories x z →
                      alookup z v.factories = some zfac →
                      zfac.transient = false → z ∈ akeys u.cache := by
                    intro x hxP hxC z zfac hre hz hztr
                    refine hcoh x hxP hxC z zfac ?_ ?_ hztr
                    · rw [hfu]
                      exact hre
                    · rw [hfu]
                      exact hz
                  have hgains := resolve_ok_gains_reach hclosure (f+1) horig
                    rfl (fun y hy => hy) hfac hcc (fun _ => hku)
                    (fun hTT => absurd hTT (by simp [htrf2]))
                  refine ⟨w2, u, heq, ?_, ?_, ?_, ?_, fun x hx => Or.inl hx⟩
                  · rw [hfr.1, hfu]
                  · rw [hfr.2.1, hru]
                  · intro y hy
                    by_cases hyv : y ∈ akeys v.cache
                    · exact hsub y hyv
                    · exact hgains y hy hyv
                  · intro x hx hnx
                    refine hcoh x hx fun hxv => hnx ?_
                    obtain ⟨-, -, -, -, ⟨d2, hc2, -⟩, -⟩ := hfr
                    rw [hc2, akeys_append]
                    exact List.mem_append.mpr (Or.inl hxv)
            · have h1 := congrArg Prod.fst h
              simp [finish, hbeh] at h1
            · have h1 := congrArg Prod.fst h
              simp [finish, hbeh] at h1
      · rw [resolveFuel_hit f ch hfac hcc] at h
        have hv' : v' = v := by simpa using (congrArg Prod.snd h).symm
        rw [hv']
        have htrf2 : fac.transient = false := by
          by_cases htrf : fac.transient = true
          · rw [htrf] at hcc
            simp at hcc
          · simpa using htrf
        have hkv : k ∈ akeys v.cache := by
          rw [if_neg (by simp [htrf2])] at hcc
          rw [← alookup_isSome_iff, hcc]
          rfl
        have hku := hsub k hkv
        rcases hlu : alookup k u.cache with _ | w2
        · exact absurd hku (alookup_eq_none.mp hlu)
        · have hccu : (if fac.transient then none
              else alookup k u.cache) = some w2 := by simp [htrf2, hlu]
          exact ⟨w2, u, resolveFuel_hit f ch hfacu hccu, hfu, hru, hsub, hcoh,
            fun x hx => Or.inl hx⟩

/-- Success simulation for an ordered dependency-read pass: a pass that
succeeds from one state also succeeds from any same-registry state with the
same mid-resolution set and a larger coherent cache, with the same cache
relations afterwards. -/
theorem resolveMany_sim_ok (f : Nat) : ∀ {ds ch : List String} {v v' u : St},
    resolveMany f ds ch v = (.ok (), v') →
    u.factories = v.factories →
    u.resolving = v.resolving →
    (∀ y, y ∈ akeys v.cache → y ∈ akeys u.cache) →
    (∀ x, x ∈ akeys u.cache → x ∉ akeys v.cache → CohAt u x) →
    ∃ u2, resolveMany f ds ch u = (.ok (), u2) ∧
      u2.factories = v'.factories ∧
      u2.resolving = v'.resolving ∧
      (∀ y, y ∈ akeys v'.cache → y ∈ akeys u2.cache) ∧
      (∀ x, x ∈ akeys u2.cache → x ∉ akeys v'.cache → CohAt u2 x) ∧
      (∀ x, x ∈ akeys u2.cache → x ∈ akeys u.cache ∨ x ∈ akeys v'.cache) := by
  intro ds
  induction ds with
  | nil =>
    intro ch v v' u h hfu hru hsub hcoh
    rw [resolveMany_nil] at h
    have hv : v' = v := by simpa using (congrArg Prod.snd h).symm
    subst hv
    exact ⟨u, resolveMany_nil f ch u, hfu, hru, hsub, hcoh,
      fun x hx => Or.inl hx⟩
  | cons a t iht =>
    intro ch v v' u h hfu hru hsub hcoh
    rcases ha : resolveFuel f a ch v with ⟨ra, v1⟩
    cases ra with
    | error e =>
      rw [resolveMany_cons_err t ha] at h
      simp at h
    | ok va =>
      rw [resolveMany_cons_ok t ha] at h
      obtain ⟨va2, u1, hau, hf1, hr1, hsub1, hcoh1, hg1⟩ :=
        resolve_sim_ok f ha hfu hru hsub hcoh
      obtain ⟨u2, htu, hf2, hr2, hsub2, hcoh2, hg2⟩ :=
        iht h hf1 hr1 hsub1 hcoh1
      have hfrt := resolveMany_frame f t ch v1
      rw [h] at hfrt
      have hmono1 : ∀ y, y ∈ akeys v1.cache → y ∈ akeys v'.cache := by
        obtain ⟨-, -, -, -, ⟨d2, hc2, -⟩, -⟩ := hfrt
        intro y hy
        rw [hc2, akeys_append]
        exact List.mem_append.mpr (Or.inl hy)
      refine ⟨u2, ?_, hf2, hr2, hsub2, hcoh2, ?_⟩
      · rw [resolveMany_cons_ok t hau]
        exact htu
      · intro x hx
        rcases hg2 x hx with hx1 | hx1
        · rcases hg1 x hx1 with hx0 | hx0
          · exact Or.inl hx0
          · exact Or.inr (hmono1 x hx0)
        · exact Or.inr hx1

/-- Failure simulation: a resolution that fails from one state fails with
the very same error from any state with the same registry and mid-resolution
set whose cache is larger yet coherent, bounded by the failing final cache,
free of transient keys, and disjoint from the mid-resolution set. -/
theorem resolve_sim_err : ∀ (f : Nat) {k : String} {ch : List String}
    {v v1 u : St} {e : RErr},
    resolveFuel f k ch v = (.error e, v1) →
    u.factories = v.factories →
    u.resolving = v.resolving →
    (∀ y, y ∈ akeys v.cache → y ∈ akeys u.cache) →
    (∀ x, x ∈ akeys u.cache → x ∉ akeys v.cache → CohAt u x) →
    (∀ x, x ∈ akeys u.cache → x ∈ akeys v1.cache) →
    (∀ x, x ∈ akeys u.cache → x ∉ v.resolving) →
    TransFree u →
    ∃ u1, resolveFuel f k ch u = (.error e, u1) := by
  intro f
  induction f with
  | zero =>
    intro k ch v v1 u e h hfu hru hsub hcoh hbound hdisj htfu
    rw [resolveFuel_zero] at h
    have he : RErr.fuelOut = e := by simpa using congrArg Prod.fst h
    exact ⟨u, by rw [resolveFuel_zero, he]⟩
  | succ f ih =>
    have hmany : ∀ (ds ch : List String) (v v1 u : St) (e : RErr),
        resolveMany f ds ch v = (.error e, v1) →
        u.factories = v.factories →
        u.resolving = v.resolving →
        (∀ y, y ∈ akeys v.cache → y ∈ akeys u.cache) →
        (∀ x, x ∈ akeys u.cache → x ∉ akeys v.cache → CohAt u x) →
        (∀ x, x ∈ akeys u.cache → x ∈ akeys v1.cache) →
        (∀ x, x ∈ akeys u.cache → x ∉ v.resolving) →
        TransFree u →
        ∃ u1, resolveMany f ds ch u = (.error e, u1) := by
      intro ds
      induction ds with
      | nil =>
        intro ch v v1 u e h hfu hru hsub hcoh hbound hdisj htfu
        rw [resolveMany_nil] at h
        simp at h
      | cons a t iht =>
        intro ch v v1 u e h hfu hru hsub hcoh hbound hdisj htfu
        rcases ha : resolveFuel f a ch v with ⟨ra, va⟩
        cases ra with
        | error e2 =>
          rw [resolveMany_cons_err t ha] at h
          have he : e2 = e := by simpa using congrArg Prod.fst h
          have hva : va = v1 := by simpa using congrArg Prod.snd h
          rw [he, hva] at ha
          obtain ⟨u1, hu⟩ := ih ha hfu hru hsub hcoh hbound hdisj htfu
          exact ⟨u1, resolveMany_cons_err t hu⟩
        | ok va2 =>
          rw [resolveMany_cons_ok t ha] at h
          obtain ⟨ua2, u1, hau, hf1, hr1, hsub1, hcoh1, hg1⟩ :=
            resolve_sim_ok f ha hfu hru hsub hcoh
          have hfrv := resolveFuel_frame f a ch v
          rw [ha] at hfrv
          have hfru := resolveFuel_frame f a ch u
          rw [hau] at hfru
          have hfrt := resolveMany_frame f t ch va
          rw [h] at hfrt
          have hmono1 : ∀ y, y ∈ akeys va.cache → y ∈ akeys v1.cache := by
            obtain ⟨-, -, -, -, ⟨d2, hc2, -⟩, -⟩ := hfrt
            intro y hy
            rw [hc2, akeys_append]
            exact List.mem_append.mpr (Or.inl hy)
          have hbound1 : ∀ x, x ∈ akeys u1.cache → x ∈ akeys v1.cache := by
            intro x hx
            rcases hg1 x hx with hx0 | hx0
            · exact hbound x hx0
            · exact hmono1 x hx0
          have hdisj1 : ∀ x, x ∈ akeys u1.cache → x ∉ va.resolving := by
            intro x hx
            rw [hfrv.2.1]
            obtain ⟨-, -, -, -, ⟨d2, hc2, hd2⟩, -⟩ := hfru
            rw [hc2, akeys_append] at hx
            rcases List.mem_append.mp hx with hx0 | hx0
            · exact hdisj x hx0
            · obtain ⟨p, hp2, hpk⟩ := List.mem_map.mp hx0
              have := (hd2 p hp2).2.1
              rw [hpk, hru] at this
              exact this
          have htfu1 : TransFree u1 := transFree_frame htfu hfru
          obtain ⟨u2, hu⟩ := iht ch va v1 u1 e h hf1 hr1 hsub1 hcoh1
            hbound1 hdisj1 htfu1
          exact ⟨u2, by rw [resolveMany_cons_ok t hau]; exact hu⟩
    intro k ch v v1 u e h hfu hru hsub hcoh hbound hdisj htfu
    rcases hfac : alookup k v.factories with _ | fac
    · rw [resolveFuel_notFound f ch hfac] at h
      have he : RErr.providerNotFound k = e := by simpa using congrArg Prod.fst h
      have hfacu : alookup k u.factories = none := by rw [hfu]; exact hfac
      exact ⟨u, by rw [resolveFuel_notFound f ch hfacu, he]⟩
    · have hfacu : alookup k u.factories = some fac := by rw [hfu]; exact hfac
      rcases hcc : (if fac.transient then none else alookup k v.cache) with _ | w
      · have hknu : k ∉ akeys u.cache := by
          by_cases htrf : fac.transient = true
          · intro hk
            rcases hl : alookup k u.cache with _ | w2
            · exact (alookup_eq_none.mp hl) hk
            · exact absurd (htfu (k, w2) (alookup_some_mem hl) fac hfacu)
                (by simp [htrf])
          · have htrf2 : fac.transient = false := by simpa using htrf
            by_cases hres : k ∈ v.resolving
            · intro hk
              exact (hdisj k hk) hres
            · have hkv : k ∉ akeys v.cache := by
                rw [if_neg (by simp [htrf2])] at hcc
                exact alookup_eq_none.mp hcc
              have hkv1 : k ∉ akeys v1.cache := resolve_err_not_self (f+1) h hkv
              intro hk
              exact hkv1 (hbound k hk)
        have hlu : alookup k u.cache = none := alookup_eq_none.mpr hknu
        have hccu : (if fac.transient then none else alookup k u.cache)
            = none := by
          by_cases htrf : fac.transient = true
          · simp [htrf]
          · simp [show fac.transient = false by simpa using htrf, hlu]
        by_cases hres : k ∈ v.resolving
        · rw [resolveFuel_circ f ch hfac hcc hres] at h
          have he : RErr.circularDependency (ch ++ [k]) = e := by
            simpa using congrArg Prod.fst h
          have hresu : k ∈ u.resolving := by rw [hru]; exact hres
          exact ⟨u, by rw [resolveFuel_circ f ch hfacu hccu hresu, he]⟩
        · have hresu : k ∉ u.resolving := by rw [hru]; exact hres
          rcases hp : resolveMany f fac.deps (ch ++ [k]) (enter k v)
            with ⟨dres, s2⟩
          have henterf : (enter k u).factories = (enter k v).factories := hfu
          have henterr : (enter k u).resolving = (enter k v).resolving := by
            show k :: u.resolving = k :: v.resolving
            rw [hru]
          have hentersub : ∀ y, y ∈ akeys (enter k v).cache →
              y ∈ akeys (enter k u).cache := hsub
          have hentercoh : ∀ x, x ∈ akeys (enter k u).cache →
              x ∉ akeys (enter k v).cache → CohAt (enter k u) x := hcoh
          cases dres with
          | error e2 =>
            rw [resolveFuel_enter_err hfac hcc hres hp] at h
            have he : e2 = e := by simpa using congrArg Prod.fst h
            have hv1 : leave k s2 = v1 := by simpa using congrArg Prod.snd h
            have henterbound : ∀ x, x ∈ akeys (enter k u).cache →
                x ∈ akeys s2.cache := by
              intro x hx
              have := hbound x hx
              rw [← hv1] at this
              exact this
            have henterdisj : ∀ x, x ∈ akeys (enter k u).cache →
                x ∉ (enter k v).resolving := by
              intro x hx hmem
              rcases List.mem_cons.mp hmem with hxk | hxr
              · rw [hxk] at hx
                exact hknu hx
              · exact (hdisj x hx) hxr
            have htfenter : TransFree (enter k u) := htfu
            obtain ⟨u2, hpu⟩ := hmany fac.deps (ch ++ [k]) (enter k v) s2
              (enter k u) e2 hp henterf henterr hentersub hentercoh
              henterbound henterdisj htfenter
            exact ⟨leave k u2, by
              rw [resolveFuel_enter_err hfacu hccu hresu hpu, he]⟩
          | ok u0 =>
            cases u0
            rw [resolveFuel_enter_ok hfac hcc hres hp] at h
            rcases hbeh : fac.behavior with ispec | _ | _
            · have h1 := congrArg Prod.fst h
              rw [finish_make_fst k ch s2 hbeh] at h1
              simp at h1
            · simp only [finish, hbeh] at h
              have he : RErr.factoryError k (ch ++ [k]) = e := by
                simpa using congrArg Prod.fst h
              obtain ⟨u2, hpu, -, -, -, -, -⟩ :=
                resolveMany_sim_ok f hp henterf henterr hentersub hentercoh
              refine ⟨leave k u2, ?_⟩
              rw [resolveFuel_enter_ok hfacu hccu hresu hpu]
              simp only [finish, hbeh]
              rw [he]
            · simp only [finish, hbeh] at h
              have he : RErr.undefinedReturn k = e := by
                simpa using congrArg Prod.fst h
              obtain ⟨u2, hpu, -, -, -, -, -⟩ :=
                resolveMany_sim_ok f hp henterf henterr hentersub hentercoh
              refine ⟨leave k u2, ?_⟩
              rw [resolveFuel_enter_ok hfacu hccu hresu hpu]
              simp only [finish, hbeh]
              rw [he]
      · rw [resolveFuel_hit f ch hfac hcc] at h
        simp at h

/-- C1: when resolving a key runs into a dependency cycle, the resolver
throws a circular-dependency error carrying the cycle chain and the
mid-resolution set is emptied on that exit path; afterwards every key that
was resolvable before the failed call still resolves successfully, and a
second resolve of the same key reproduces exactly the same
circular-dependency error rather than being blocked by stale mid-resolution
state. Stated over any starting state that is at rest (nothing
mid-resolution) and whose cache holds no transient-keyed entries. -/
theorem cycle_safety {k : String} {c : List String} {s s1 : St}
    (hres0 : s.resolving = [])
    (htf : TransFree s)
    (h : resolveTop k s = (.error (.circularDependency c), s1)) :
    s1.resolving = [] ∧
    (∃ s2, resolveTop k s1 = (.error (.circularDependency c), s2)) ∧
    (∀ j vj sj, resolveTop j s = (.ok vj, sj) →
      ∃ v2 s2, resolveTop j s1 = (.ok v2, s2)) := by
  have hfr : Frame s s1 := by
    have hf := resolveTop_frame k s
    rw [h] at hf
    exact hf
  have hfuel : resolveFuel (s.factories.length + 1 + 1) k [] s
      = (.error (.circularDependency c), s1) := by
    rw [← resolveTop_as_fuel]
    exact h
  have hfu : s1.factories = s.factories := hfr.1
  have hru : s1.resolving = s.resolving := hfr.2.1
  have hsub : ∀ y, y ∈ akeys s.cache → y ∈ akeys s1.cache := by
    obtain ⟨-, -, -, -, ⟨d, hc, -⟩, -⟩ := hfr
    intro y hy
    rw [hc, akeys_append]
    exact List.mem_append.mpr (Or.inl hy)
  have hcoh1 : ∀ x, x ∈ akeys s1.cache → x ∉ akeys s.cache → CohAt s1 x :=
    resolve_gains_coherent (s.factories.length + 1 + 1) hfuel
  have hdisj : ∀ x, x ∈ akeys s1.cache → x ∉ s.resolving := by
    intro x hx
    rw [hres0]
    exact List.not_mem_nil x
  have htf1 : TransFree s1 := transFree_frame htf hfr
  have hlen : s1.factories.length = s.factories.length := by rw [hfu]
  refine ⟨by rw [hru, hres0], ?_, ?_⟩
  · obtain ⟨u1, hu⟩ := resolve_sim_err (s.factories.length + 1 + 1) hfuel
      hfu hru hsub hcoh1 (fun x hx => hx) hdisj htf1
    refine ⟨u1, ?_⟩
    rw [resolveTop_as_fuel, hlen]
    exact hu
  · intro j vj sj hj
    have hjfuel : resolveFuel (s.factories.length + 1 + 1) j [] s
        = (.ok vj, sj) := by
      rw [← resolveTop_as_fuel]
      exact hj
    obtain ⟨v2, u2, hu2, -, -, -, -, -⟩ :=
      resolve_sim_ok (s.factories.length + 1 + 1) hjfuel hfu hru hsub hcoh1
    refine ⟨v2, u2, ?_⟩
    rw [resolveTop_as_fuel, hlen]
    exact hu2

/-- C1 witness: on the two-key cycle a and b with the standalone key safe,
resolving a from a fresh container raises the circular-dependency error with
chain a, b, a; the mid-resolution set is empty afterwards, a retry raises
the same error, and every key resolvable from the fresh container is still
resolvable. -/
theorem cycle_safety_witness :
    (resolveTop "a" (exSt exC1Reg)).2.resolving = [] ∧
    (∃ s2, resolveTop "a" (resolveTop "a" (exSt exC1Reg)).2
      = (.error (.circularDependency ["a", "b", "a"]), s2)) ∧
    (∀ j vj sj, resolveTop j (exSt exC1Reg) = (.ok vj, sj) →
      ∃ v2 s2, resolveTop j (resolveTop "a" (exSt exC1Reg)).2 = (.ok v2, s2)) :=
  @cycle_safety "a" ["a", "b", "a"] (exSt exC1Reg)
    (resolveTop "a" (exSt exC1Reg)).2
    (by decide) (fun p hp => absurd hp (List.not_mem_nil p)) (by decide)

theorem mem_idx {α : Type} : ∀ (l : List α) (a : α),
    a ∈ l → ∃ i, l.get? i = some a := by
  intro l
  induction l with
  | nil =>
    intro a ha
    exact absurd ha (List.not_mem_nil a)
  | cons x t ih =>
    intro a ha
    rcases List.mem_cons.mp ha with h | h
    · exact ⟨0, by rw [h]; rfl⟩
    · obtain ⟨i, hg⟩ := ih a h
      exact ⟨i + 1, hg⟩

theorem mem_take_idx {α : Type} : ∀ (l : List α) (n : Nat) (a : α),
    a ∈ l.take n → ∃ i, i < n ∧ l.get? i = some a := by
  intro l
  induction l with
  | nil =>
    intro n a ha
    simp at ha
  | cons x t ih =>
    intro n a ha
    cases n with
    | zero => simp at ha
    | succ n =>
      rw [List.take_succ_cons] at ha
      rcases List.mem_cons.mp ha with h | h
      · exact ⟨0, Nat.succ_pos n, by rw [h]; rfl⟩
      · obtain ⟨i, hin, hg⟩ := ih n a h
        exact ⟨i + 1, Nat.succ_lt_succ hin, hg⟩

theorem idx_take_mem {α : Type} : ∀ (l : List α) (n i : Nat) (a : α),
    l.get? i = some a → i < n → a ∈ l.take n := by
  intro l
  induction l with
  | nil =>
    intro n i a h
    simp at h
  | cons x t ih =>
    intro n i a h hin
    cases n with
    | zero => exact absurd hin (Nat.not_lt_zero i)
    | succ n =>
      rw [List.take_succ_cons]
      cases i with
      | zero =>
        have h1 : x = a := by simpa using h
        rw [← h1]
        exact List.mem_cons_self x (t.take n)
      | succ i =>
        exact List.mem_cons_of_mem x (ih n i a h (Nat.lt_of_succ_lt_succ hin))

theorem mem_drop_idx {α : Type} : ∀ (l : List α) (n : Nat) (a : α),
    a ∈ l.drop n → ∃ i, n ≤ i ∧ l.get? i = some a := by
  intro l
  induction l with
  | nil =>
    intro n a ha
    simp at ha
  | cons x t ih =>
    intro n a ha
    cases n with
    | zero =>
      obtain ⟨i, hg⟩ := mem_idx (x :: t) a ha
      exact ⟨i, Nat.zero_le i, hg⟩
    | succ n =>
      rw [List.drop_succ_cons] at ha
      obtain ⟨i, hni, hg⟩ := ih n a ha
      exact ⟨i + 1, Nat.succ_le_succ hni, hg⟩

theorem closureGo_sub : ∀ (f : Nat) (g : List (String × List String))
    (stack acc out rest : List String),
    closureGo f g stack acc = (out, rest) →
    (∀ k, k ∈ acc → k ∈ out) ∧ (rest = [] → ∀ k, k ∈ stack → k ∈ out) := by
  intro f
  induction f with
  | zero =>
    intro g stack acc out rest h
    simp only [closureGo] at h
    injection h with h1 h2
    subst h1
    subst h2
    refine ⟨fun k hk => hk, fun hr k hk => ?_⟩
    rw [hr] at hk
    exact absurd hk (List.not_mem_nil k)
  | succ f ih =>
    intro g stack acc out rest h
    cases stack with
    | nil =>
      simp only [closureGo] at h
      injection h with h1 h2
      subst h1
      exact ⟨fun k hk => hk, fun _ k hk => absurd hk (List.not_mem_nil k)⟩
    | cons a rest2 =>
      simp only [closureGo] at h
      by_cases ha : a ∈ acc
      · rw [if_pos ha] at h
        obtain ⟨h1, h2⟩ := ih g rest2 acc out rest h
        refine ⟨h1, fun hr x hx => ?_⟩
        rcases List.mem_cons.mp hx with hxk | hxr
        · exact h1 x (hxk ▸ ha)
        · exact h2 hr x hxr
      · rw [if_neg ha] at h
        obtain ⟨h1, h2⟩ := ih g ((alookup a g).getD [] ++ rest2) (acc ++ [a])
          out rest h
        refine ⟨fun x hx => h1 x (List.mem_append.mpr (Or.inl hx)),
          fun hr x hx => ?_⟩
        rcases List.mem_cons.mp hx with hxk | hxr
        · exact h1 x (by rw [hxk]; exact List.mem_append.mpr (Or.inr (by simp)))
        · exact h2 hr x (List.mem_append.mpr (Or.inr hxr))

theorem closureGo_closed : ∀ (f : Nat) (g : List (String × List String))
    (stack acc out : List String),
    closureGo f g stack acc = (out, []) →
    ∀ k, k ∈ out → k ∈ acc ∨ ∀ d, d ∈ (alookup k g).getD [] → d ∈ out := by
  intro f
  induction f with
  | zero =>
    intro g stack acc out h k hk
    simp only [closureGo] at h
    injection h with h1 h2
    subst h1
    exact Or.inl hk
  | succ f ih =>
    intro g stack acc out h k hk
    cases stack with
    | nil =>
      simp only [closureGo] at h
      injection h with h1 h2
      subst h1
      exact Or.inl hk
    | cons a rest2 =>
      simp only [closureGo] at h
      by_cases ha : a ∈ acc
      · rw [if_pos ha] at h
        exact ih g rest2 acc out h k hk
      · rw [if_neg ha] at h
        rcases ih g _ _ out h k hk with hin | hcl
        · rcases List.mem_append.mp hin with hin | hin
          · exact Or.inl hin
          · have hka : k = a := by simpa using hin
            subst hka
            refine Or.inr fun d hd => ?_
            exact (closureGo_sub f g _ _ out [] h).2 rfl d
              (List.mem_append.mpr (Or.inl hd))
        · exact Or.inr hcl

/-- Every key reachable from the roots over the recorded graph is visited
by a closure walk that terminates with an empty stack. -/
theorem reaches_closure {g : List (String × List String)}
    {roots cl : List String} (hcr : closureRun g roots = (cl, [])) :
    ∀ x, Reaches g roots x → x ∈ cl := by
  intro x hre
  induction hre with
  | root hmem =>
    exact (closureGo_sub (closureFuel g roots) g roots [] cl [] hcr).2 rfl _ hmem
  | step hre hdep ih =>
    rcases closureGo_closed (closureFuel g roots) g roots [] cl hcr _ ih
      with habs | hcl
    · exact absurd habs (List.not_mem_nil _)
    · exact hcl _ hdep

theorem mem_nextLevel {g : List (String × List String)} {cl placed : List String}
    {k : String} :
    k ∈ nextLevel g cl placed ↔
      k ∈ cl ∧ k ∉ placed ∧
        ∀ d ∈ (alookup k g).getD [], d ∈ cl → d ∈ placed := by
  simp [nextLevel, List.mem_filter]

theorem levelsGo_idx : ∀ (f : Nat) (g : List (String × List String))
    (cl placed : List String) (i : Nat) (lvl : List String),
    (levelsGo f g cl placed).get? i = some lvl →
    lvl = nextLevel g cl (placed ++ ((levelsGo f g cl placed).take i).flatten) := by
  intro f
  induction f with
  | zero =>
    intro g cl placed i lvl h
    simp [levelsGo] at h
  | succ f ih =>
    intro g cl placed i lvl h
    by_cases hemp : (nextLevel g cl placed).isEmpty
    · have heq : levelsGo (f+1) g cl placed = [] := by
        simp only [levelsGo]
        rw [if_pos hemp]
      rw [heq] at h
      simp at h
    · have heq : levelsGo (f+1) g cl placed = nextLevel g cl placed ::
          levelsGo f g cl (placed ++ nextLevel g cl placed) := by
        simp only [levelsGo]
        rw [if_neg hemp]
      rw [heq] at h ⊢
      cases i with
      | zero =>
        have h1 : nextLevel g cl placed = lvl := by simpa using h
        rw [← h1]
        simp
      | succ i =>
        have h2 := ih g cl (placed ++ nextLevel g cl placed) i lvl h
        rw [h2, List.take_succ_cons, List.flatten_cons, List.append_assoc]

theorem levelsOf_idx {g : List (String × List String)} {cl : List String}
    {i : Nat} {lvl : List String}
    (h : (levelsOf g cl).get? i = some lvl) :
    lvl = nextLevel g cl ((levelsOf g cl).take i).flatten := by
  have h2 := levelsGo_idx (cl.length + 1) g cl [] i lvl h
  simpa [levelsOf] using h2

theorem levelsOf_disjoint {g : List (String × List String)} {cl : List String}
    {i j : Nat} {li lj : List String}
    (hi : (levelsOf g cl).get? i = some li)
    (hj : (levelsOf g cl).get? j = some lj)
    (hne : i ≠ j) {k : String} (hki : k ∈ li) (hkj : k ∈ lj) : False := by
  have main : ∀ (a b : Nat) (la lb : List String),
      (levelsOf g cl).get? a = some la → (levelsOf g cl).get? b = some lb →
      a < b → k ∈ la → k ∈ lb → False := by
    intro a b la lb ha hb hab hka hkb
    rw [levelsOf_idx hb] at hkb
    refine (mem_nextLevel.mp hkb).2.1 ?_
    exact List.mem_flatten.mpr ⟨la, idx_take_mem (levelsOf g cl) b a la ha hab,
      hka⟩
  rcases Nat.lt_or_ge i j with hij | hij
  · exact main i j li lj hi hj hij hki hkj
  · rcases Nat.lt_or_ge j i with hji | hji
    · exact main j i lj li hj hi hji hkj hki
    · exact hne (Nat.le_antisymm hji hij)

theorem levelsOf_deps_earlier {g : List (String × List String)}
    {cl : List String} {i : Nat} {li : List String} {k d : String}
    (hi : (levelsOf g cl).get? i = some li) (hk : k ∈ li)
    (hd : d ∈ (alookup k g).getD []) (hdcl : d ∈ cl) :
    d ∈ ((levelsOf g cl).take i).flatten := by
  rw [levelsOf_idx hi] at hk
  exact (mem_nextLevel.mp hk).2.2 d hd hdcl

theorem levelsOf_mem_cl {g : List (String × List String)} {cl : List String}
    {i : Nat} {li : List String} {k : String}
    (hi : (levelsOf g cl).get? i = some li) (hk : k ∈ li) : k ∈ cl := by
  rw [levelsOf_idx hi] at hk
  exact (mem_nextLevel.mp hk).1

theorem initBegin_cache (k : String) (s : St) :
    (initBegin k s).2.cache = s.cache :=
  (initBegin_frame k s).2.1

theorem initBegin_mark {k : String} {s : St} (hk : k ∈ akeys s.cache) :
    k ∈ (initBegin k s).2.initState := by
  unfold initBegin
  by_cases hin : k ∈ s.initState
  · rw [if_pos hin]
    exact hin
  · rw [if_neg hin]
    rcases hl : alookup k s.cache with _ | inst
    · exact absurd hk (alookup_eq_none.mp hl)
    · rcases hspec : inst.spec.onInitSpec with _ | isp <;> simp [hspec]

theorem initBegin_started {k : String} {s : St} {isp : InitSpec}
    (h : (initBegin k s).1 = some isp) :
    k ∉ s.initState ∧ k ∈ (initBegin k s).2.initState := by
  unfold initBegin at h ⊢
  by_cases hin : k ∈ s.initState
  · rw [if_pos hin] at h
    simp at h
  · rw [if_neg hin] at h ⊢
    rcases hl : alookup k s.cache with _ | inst
    · simp [hl] at h
    · rcases hspec : inst.spec.onInitSpec with _ | isp2
      · simp [hl, hspec] at h
      · exact ⟨hin, by simp [hspec]⟩

theorem levelStart_trace : ∀ (l : List String) (s : St),
    (levelStart l s).2.events =
      s.events ++ (levelStart l s).1.map (fun p => Event.initStart p.1) := by
  intro l
  induction l with
  | nil =>
    intro s
    simp [levelStart]
  | cons a t ih =>
    intro s
    have h2 : (levelStart (a :: t) s).2 = (levelStart t (initBegin a s).2).2 :=
      rfl
    rcases initBegin_events a s with ⟨hb1, hb2⟩ | ⟨isp, hb1, hb2⟩
    · have h1 : (levelStart (a :: t) s).1 =
          (levelStart t (initBegin a s).2).1 := by
        show (match (initBegin a s).1 with
          | some isp => (a, isp) :: (levelStart t (initBegin a s).2).1
          | none => (levelStart t (initBegin a s).2).1) = _
        rw [hb1]
      rw [h2, h1, ih, hb2]
    · have h1 : (levelStart (a :: t) s).1 =
          (a, isp) :: (levelStart t (initBegin a s).2).1 := by
        show (match (initBegin a s).1 with
          | some isp2 => (a, isp2) :: (levelStart t (initBegin a s).2).1
          | none => (levelStart t (initBegin a s).2).1) = _
        rw [hb1]
      rw [h2, h1, ih, hb2]
      simp

theorem levelStart_started : ∀ (l : List String) (s : St),
    ∀ p ∈ (levelStart l s).1,
      p.1 ∈ l ∧ p.1 ∉ s.initState ∧ p.1 ∈ (levelStart l s).2.initState := by
  intro l
  induction l with
  | nil =>
    intro s p hp
    simp [levelStart] at hp
  | cons a t ih =>
    intro s p hp
    have hfr := levelStart_frame t (initBegin a s).2
    obtain ⟨add, hadd⟩ := hfr.2.2.2.2.2.2.2.1
    obtain ⟨add0, hadd0⟩ := (initBegin_frame a s).2.2.2.2.2.2.2.1
    rcases hb : (initBegin a s).1 with _ | isp
    · have h1 : (levelStart (a :: t) s).1 =
          (levelStart t (initBegin a s).2).1 := by
        show (match (initBegin a s).1 with
          | some isp => (a, isp) :: (levelStart t (initBegin a s).2).1
          | none => (levelStart t (initBegin a s).2).1) = _
        rw [hb]
      rw [h1] at hp
      obtain ⟨hm1, hm2, hm3⟩ := ih (initBegin a s).2 p hp
      refine ⟨List.mem_cons_of_mem a hm1, ?_, hm3⟩
      intro hmem
      exact hm2 (by rw [hadd0]; exact List.mem_append.mpr (Or.inl hmem))
    · have h1 : (levelStart (a :: t) s).1 =
          (a, isp) :: (levelStart t (initBegin a s).2).1 := by
        show (match (initBegin a s).1 with
          | some isp2 => (a, isp2) :: (levelStart t (initBegin a s).2).1
          | none => (levelStart t (initBegin a s).2).1) = _
        rw [hb]
      rw [h1] at hp
      rcases List.mem_cons.mp hp with hpa | hpt
      · subst hpa
        obtain ⟨hnot, hmark⟩ := initBegin_started hb
        refine ⟨List.mem_cons_self a t, hnot, ?_⟩
        show (a, isp).1 ∈ (levelStart t (initBegin a s).2).2.initState
        rw [hadd]
        exact List.mem_append.mpr (Or.inl hmark)
      · obtain ⟨hm1, hm2, hm3⟩ := ih (initBegin a s).2 p hpt
        refine ⟨List.mem_cons_of_mem a hm1, ?_, hm3⟩
        intro hmem
        exact hm2 (by rw [hadd0]; exact List.mem_append.mpr (Or.inl hmem))

theorem levelStart_marks : ∀ (l : List String) (s : St), ∀ k ∈ l,
    k ∈ akeys s.cache → k ∈ (levelStart l s).2.initState := by
  intro l
  induction l with
  | nil =>
    intro s k hk
    simp at hk
  | cons a t ih =>
    intro s k hk hc
    have hfr := levelStart_frame t (initBegin a s).2
    obtain ⟨add, hadd⟩ := hfr.2.2.2.2.2.2.2.1
    rcases List.mem_cons.mp hk with hka | hkt
    · subst hka
      show k ∈ (levelStart t (initBegin k s).2).2.initState
      rw [hadd]
      exact List.mem_append.mpr (Or.inl (initBegin_mark hc))
    · show k ∈ (levelStart t (initBegin a s).2).2.initState
      refine ih (initBegin a s).2 k hkt ?_
      rw [initBegin_cache a s]
      exact hc

theorem levelJoin_initState : ∀ (l : List (String × InitSpec)) (s : St),
    (levelJoin l s).2.initState = s.initState := by
  intro l
  induction l with
  | nil => exact fun s => rfl
  | cons p t ih =>
    intro s
    obtain ⟨k, isp⟩ := p
    show (levelJoin t _).2.initState = s.initState
    rw [ih]

theorem levelJoin_cache : ∀ (l : List (String × InitSpec)) (s : St),
    (levelJoin l s).2.cache = s.cache := by
  intro l
  induction l with
  | nil => exact fun s => rfl
  | cons p t ih =>
    intro s
    obtain ⟨k, isp⟩ := p
    show (levelJoin t _).2.cache = s.cache
    rw [ih]

/-- The full behavior of the level machinery: one trace block per level,
each block listing all initStart events of the level before all its initEnd
events; started keys belong to their level, no key is started twice or
started when already initialized, and every cached closure key ends up
initialized. -/
theorem processLevels_spec : ∀ (lv : List (List String)) (s : St),
    ∃ S : List (List String),
      S.length = lv.length ∧
      (processLevels lv s).2.events = s.events ++ blockEvents S ∧
      (∀ i li si, lv.get? i = some li → S.get? i = some si →
        ∀ k ∈ si, k ∈ li) ∧
      List.Pairwise (fun p q => ∀ k, k ∈ p → k ∉ q) S ∧
      (∀ k, k ∈ s.initState → ∀ l ∈ S, k ∉ l) ∧
      (∀ x, x ∈ lv.flatten → x ∈ akeys s.cache →
        x ∈ (processLevels lv s).2.initState) := by
  intro lv
  induction lv with
  | nil =>
    intro s
    exact ⟨[], rfl, by simp [processLevels, blockEvents], by simp,
      List.Pairwise.nil, by simp, by simp⟩
  | cons lvl rest ih =>
    intro s
    obtain ⟨S', hlen, hev, hsub, hpw, hinit, hcov⟩ :=
      ih (levelJoin (levelStart lvl s).1 (levelStart lvl s).2).2
    have hjoinInit := levelJoin_initState (levelStart lvl s).1 (levelStart lvl s).2
    have hjoinCache := levelJoin_cache (levelStart lvl s).1 (levelStart lvl s).2
    have hstartCache : (levelStart lvl s).2.cache = s.cache :=
      (levelStart_frame lvl s).2.1
    obtain ⟨addS, haddS⟩ := (levelStart_frame lvl s).2.2.2.2.2.2.2.1
    refine ⟨(levelStart lvl s).1.map Prod.fst :: S', by simpa using hlen,
      ?_, ?_, ?_, ?_, ?_⟩
    · show (processLevels rest
        (levelJoin (levelStart lvl s).1 (levelStart lvl s).2).2).2.events = _
      rw [hev, levelJoin_events, levelStart_trace]
      simp [blockEvents, List.map_map, Function.comp_def]
    · intro i li si hli hsi k hk
      cases i with
      | zero =>
        have hli2 : lvl = li := by simpa using hli
        have hsi2 : (levelStart lvl s).1.map Prod.fst = si := by simpa using hsi
        rw [← hsi2] at hk
        obtain ⟨p, hp, hpk⟩ := List.mem_map.mp hk
        rw [← hli2, ← hpk]
        exact (levelStart_started lvl s p hp).1
      | succ i =>
        exact hsub i li si hli hsi k hk
    · refine List.Pairwise.cons ?_ hpw
      intro l' hl' k hkK
      obtain ⟨p, hp, hpk⟩ := List.mem_map.mp hkK
      have hks : k ∈ (levelJoin (levelStart lvl s).1
          (levelStart lvl s).2).2.initState := by
        rw [hjoinInit, ← hpk]
        exact (levelStart_started lvl s p hp).2.2
      exact hinit k hks l' hl'
    · intro k hk l hl
      rcases List.mem_cons.mp hl with hl0 | hl1
      · rw [hl0]
        intro hkK
        obtain ⟨p, hp, hpk⟩ := List.mem_map.mp hkK
        exact (levelStart_started lvl s p hp).2.1 (hpk ▸ hk)
      · refine hinit k ?_ l hl1
        rw [hjoinInit, haddS]
        exact List.mem_append.mpr (Or.inl hk)
    · intro x hx hc
      rw [List.flatten_cons] at hx
      have hframe := processLevels_frame rest
        (levelJoin (levelStart lvl s).1 (levelStart lvl s).2).2
      obtain ⟨addP, haddP⟩ := hframe.2.2.2.2.2.2.2.1
      rcases List.mem_append.mp hx with hx0 | hx1
      · show x ∈ (processLevels rest _).2.initState
        rw [haddP, hjoinInit]
        exact List.mem_append.mpr (Or.inl (levelStart_marks lvl s x hx0 hc))
      · refine hcov x hx1 ?_
        rw [hjoinCache, hstartCache]
        exact hc

theorem finish_events_defer {fac : Factory} {k : String} {ch : List String}
    {s : St} (hdef : s.deferInit = true) :
    (finish k ch fac s).2.events = s.events := by
  rcases hbeh : fac.behavior with ispec | _ | _
  · by_cases htr : fac.transient <;> simp [finish, hbeh, htr, inlineInit, hdef]
  · simp [finish, hbeh]
  · simp [finish, hbeh]

/-- In deferred-init mode the resolver emits only factory-call events. -/
theorem resolve_events_calls : ∀ (f : Nat) (k : String) (ch : List String)
    (st : St), st.deferInit = true →
    ∃ d, (resolveFuel f k ch st).2.events = st.events ++ d ∧
      ∀ e ∈ d, ∃ q, e = Event.factoryCall q := by
  intro f
  induction f with
  | zero =>
    intro k ch st hdef
    exact ⟨[], by rw [resolveFuel_zero]; simp, by simp⟩
  | succ f ih =>
    have hmany : ∀ (ds : List String) (ch : List String) (st : St),
        st.deferInit = true →
        ∃ d, (resolveMany f ds ch st).2.events = st.events ++ d ∧
          ∀ e ∈ d, ∃ q, e = Event.factoryCall q := by
      intro ds
      induction ds with
      | nil =>
        intro ch st hdef
        exact ⟨[], by rw [resolveMany_nil]; simp, by simp⟩
      | cons a t iht =>
        intro ch st hdef
        rcases ha : resolveFuel f a ch st with ⟨ra, s1⟩
        have hfr := resolveFuel_frame f a ch st
        rw [ha] at hfr
        obtain ⟨d1, hd1, hd1c⟩ := ih a ch st hdef
        rw [ha] at hd1
        cases ra with
        | error e =>
          rw [resolveMany_cons_err t ha]
          exact ⟨d1, hd1, hd1c⟩
        | ok v =>
          rw [resolveMany_cons_ok t ha]
          have hdef1 : s1.deferInit = true := by rw [hfr.2.2.1, hdef]
          obtain ⟨d2, hd2, hd2c⟩ := iht ch s1 hdef1
          refine ⟨d1 ++ d2, by rw [hd2, hd1, List.append_assoc], ?_⟩
          intro e he
          rcases List.mem_append.mp he with h | h
          · exact hd1c e h
          · exact hd2c e h
    intro k ch st hdef
    rcases hfac : alookup k st.factories with _ | fac
    · exact ⟨[], by rw [resolveFuel_notFound f ch hfac]; simp, by simp⟩
    · rcases hcc : (if fac.transient then none else alookup k st.cache)
        with _ | w
      · by_cases hres : k ∈ st.resolving
        · exact ⟨[], by rw [resolveFuel_circ f ch hfac hcc hres]; simp, by simp⟩
        · rcases hp : resolveMany f fac.deps (ch ++ [k]) (enter k st)
            with ⟨dres, s2⟩
          have hdefE : (enter k st).deferInit = true := hdef
          obtain ⟨d2, hd2, hd2c⟩ := hmany fac.deps (ch ++ [k]) (enter k st) hdefE
          rw [hp] at hd2
          have hd2b : s2.events = st.events ++ (Event.factoryCall k :: d2) := by
            rw [hd2]
            show (st.events ++ [Event.factoryCall k]) ++ d2 = _
            simp
          have hmem : ∀ e ∈ Event.factoryCall k :: d2, ∃ q,
              e = Event.factoryCall q := by
            intro e he
            rcases List.mem_cons.mp he with h | h
            · exact ⟨k, h⟩
            · exact hd2c e h
          cases dres with
          | error e =>
            refine ⟨Event.factoryCall k :: d2, ?_, hmem⟩
            rw [resolveFuel_enter_err hfac hcc hres hp]
            exact hd2b
          | ok u =>
            cases u
            have hdef2 : s2.deferInit = true := by
              have hfr2 := resolveMany_frame f fac.deps (ch ++ [k]) (enter k st)
              rw [hp] at hfr2
              rw [hfr2.2.2.1]
              exact hdefE
            refine ⟨Event.factoryCall k :: d2, ?_, hmem⟩
            rw [resolveFuel_enter_ok hfac hcc hres hp]
            show (finish k ch fac s2).2.events = _
            rw [finish_events_defer hdef2]
            exact hd2b
      · exact ⟨[], by rw [resolveFuel_hit f ch hfac hcc]; simp, by simp⟩

/-- The dependency-read pass of the resolve phase of preload emits only
factory-call events. -/
theorem resolveMany_events_calls (f : Nat) : ∀ (ds ch : List String) (st : St),
    st.deferInit = true →
    ∃ d, (resolveMany f ds ch st).2.events = st.events ++ d ∧
      ∀ e ∈ d, ∃ q, e = Event.factoryCall q := by
  intro ds
  induction ds with
  | nil =>
    intro ch st hdef
    exact ⟨[], by rw [resolveMany_nil]; simp, by simp⟩
  | cons a t iht =>
    intro ch st hdef
    rcases ha : resolveFuel f a ch st with ⟨ra, s1⟩
    have hfr := resolveFuel_frame f a ch st
    rw [ha] at hfr
    obtain ⟨d1, hd1, hd1c⟩ := resolve_events_calls f a ch st hdef
    rw [ha] at hd1
    cases ra with
    | error e =>
      rw [resolveMany_cons_err t ha]
      exact ⟨d1, hd1, hd1c⟩
    | ok v =>
      rw [resolveMany_cons_ok t ha]
      have hdef1 : s1.deferInit = true := by rw [hfr.2.2.1, hdef]
      obtain ⟨d2, hd2, hd2c⟩ := iht ch s1 hdef1
      refine ⟨d1 ++ d2, by rw [hd2, hd1, List.append_assoc], ?_⟩
      intro e he
      rcases List.mem_append.mp he with h | h
      · exact hd1c e h
      · exact hd2c e h

theorem blockEvents_append (S1 S2 : List (List String)) :
    blockEvents (S1 ++ S2) = blockEvents S1 ++ blockEvents S2 := by
  simp [blockEvents]

theorem start_mem_blockEvents {S : List (List String)} {k : String} :
    Event.initStart k ∈ blockEvents S ↔ ∃ l ∈ S, k ∈ l := by
  unfold blockEvents
  rw [List.mem_flatten]
  constructor
  · rintro ⟨b, hb, he⟩
    obtain ⟨l, hl, rfl⟩ := List.mem_map.mp hb
    rcases List.mem_append.mp he with h | h
    · obtain ⟨x, hx, hxe⟩ := List.mem_map.mp h
      have hxk : x = k := Event.initStart.inj hxe
      exact ⟨l, hl, hxk ▸ hx⟩
    · obtain ⟨x, hx, hxe⟩ := List.mem_map.mp h
      simp at hxe
  · rintro ⟨l, hl, hk⟩
    exact ⟨l.map Event.initStart ++ l.map Event.initEnd,
      List.mem_map.mpr ⟨l, hl, rfl⟩,
      List.mem_append.mpr (Or.inl (List.mem_map.mpr ⟨k, hk, rfl⟩))⟩

theorem end_mem_blockEvents {S : List (List String)} {k : String} :
    Event.initEnd k ∈ blockEvents S ↔ ∃ l ∈ S, k ∈ l := by
  unfold blockEvents
  rw [List.mem_flatten]
  constructor
  · rintro ⟨b, hb, he⟩
    obtain ⟨l, hl, rfl⟩ := List.mem_map.mp hb
    rcases List.mem_append.mp he with h | h
    · obtain ⟨x, hx, hxe⟩ := List.mem_map.mp h
      simp at hxe
    · obtain ⟨x, hx, hxe⟩ := List.mem_map.mp h
      have hxk : x = k := Event.initEnd.inj hxe
      exact ⟨l, hl, hxk ▸ hx⟩
  · rintro ⟨l, hl, hk⟩
    exact ⟨l.map Event.initStart ++ l.map Event.initEnd,
      List.mem_map.mpr ⟨l, hl, rfl⟩,
      List.mem_append.mpr (Or.inr (List.mem_map.mpr ⟨k, hk, rfl⟩))⟩

theorem blockEvents_cons (l : List String) (S : List (List String)) :
    blockEvents (l :: S) =
      (l.map Event.initStart ++ l.map Event.initEnd) ++ blockEvents S := by
  simp [blockEvents]

theorem pairwise_not_mem_idx {S : List (List String)}
    (hpw : List.Pairwise (fun p q => ∀ k, k ∈ p → k ∉ q) S)
    {i j : Nat} {a b : List String}
    (hi : S.get? i = some a) (hj : S.get? j = some b) (hne : i ≠ j)
    {k : String} (hka : k ∈ a) (hkb : k ∈ b) : False := by
  obtain ⟨hilen, hgi⟩ := List.get?_eq_some.mp hi
  obtain ⟨hjlen, hgj⟩ := List.get?_eq_some.mp hj
  rcases Nat.lt_or_ge i j with hij | hij
  · exact (List.pairwise_iff_get.mp hpw ⟨i, hilen⟩ ⟨j, hjlen⟩
      (show (⟨i, hilen⟩ : Fin S.length) < ⟨j, hjlen⟩ from hij)) k
      (by rw [hgi]; exact hka) (by rw [hgj]; exact hkb)
  · have hji : j < i := Nat.lt_of_le_of_ne hij (Ne.symm hne)
    exact (List.pairwise_iff_get.mp hpw ⟨j, hjlen⟩ ⟨i, hilen⟩
      (show (⟨j, hjlen⟩ : Fin S.length) < ⟨i, hilen⟩ from hji)) k
      (by rw [hgj]; exact hkb) (by rw [hgi]; exact hka)

theorem preloadInitPhase_eq (ks : List String) (m : St) :
    preloadInitPhase ks m =
      (initOutcome
        (processLevels (levelsOf m.depGraph (closureRun m.depGraph ks).1) m).1
        ((closureRun m.depGraph ks).1.filter (fun k =>
          decide (k ∉ (levelsOf m.depGraph
            (closureRun m.depGraph ks).1).flatten)) ++
          (closureRun m.depGraph ks).2),
       (processLevels (levelsOf m.depGraph
         (closureRun m.depGraph ks).1) m).2) := rfl

/-- What a successful initialization phase of preload certifies: no hook
failure, the closure walk finished its stack, every closure key was placed
into some topological level, and the final state is the level-processing
state. -/
theorem preloadInitPhase_parts {ks : List String} {m s4 : St}
    {cl leftover : List String}
    (hcr : closureRun m.depGraph ks = (cl, leftover))
    (h : preloadInitPhase ks m = (.ok (), s4)) :
    leftover = [] ∧
    (∀ k ∈ cl, k ∈ (levelsOf m.depGraph cl).flatten) ∧
    s4 = (processLevels (levelsOf m.depGraph cl) m).2 := by
  rw [preloadInitPhase_eq, hcr] at h
  injection h with h1 h2
  rw [initOutcome_ok_iff] at h1
  have hsplit := List.append_eq_nil.mp h1.2
  refine ⟨hsplit.2, ?_, h2.symm⟩
  intro k hk
  by_contra hnk
  have hmem : k ∈ List.filter (fun k =>
      decide (k ∉ (levelsOf m.depGraph cl).flatten)) cl :=
    List.mem_filter.mpr ⟨hk, by simpa using hnk⟩
  rw [hsplit.1] at hmem
  exact absurd hmem (List.not_mem_nil k)

/-- C3: a successful preload initializes every cached key in the transitive
closure of the requested keys over the recorded dependency graph, not only
the directly requested ones; in the emitted trace, for every recorded edge
from a key to a dependency, every completion of the dependency hook lies
strictly before every start of the dependent hook; and within one
topological level every hook start precedes every hook join, so the hooks of
level mates overlap. Stated over a container whose trace starts empty. -/
theorem preload_topological_init {keys : Option (List String)} {s s4 : St}
    (hev : s.events = [])
    (h : preload keys s = (.ok (), s4)) :
    (∀ x, Reaches (preloadMid keys s).depGraph (preloadKeys keys s) x →
      x ∈ akeys s4.cache → x ∈ s4.initState) ∧
    (∀ key dep, dep ∈ (alookup key (preloadMid keys s).depGraph).getD [] →
      allBefore s4.events (Event.initEnd dep) (Event.initStart key)) ∧
    (∀ lvl, lvl ∈ preloadLevels keys s → ∀ a b, a ∈ lvl → b ∈ lvl →
      allBefore s4.events (Event.initStart a) (Event.initEnd b)) := by
  rcases hp : resolveMany (s.factories.length + 2) (preloadKeys keys s) []
    { s with deferInit := true } with ⟨rres, s2⟩
  cases rres with
  | error e =>
    rw [preload_resolve_err hp] at h
    simp at h
  | ok u =>
    cases u
    rw [preload_resolve_ok hp] at h
    have hmid : preloadMid keys s = { s2 with deferInit := false } := by
      unfold preloadMid
      rw [hp]
    rcases hcr : closureRun ({ s2 with deferInit := false } : St).depGraph
      (preloadKeys keys s) with ⟨cl, leftover⟩
    obtain ⟨hleft, hcover, hs4⟩ := preloadInitPhase_parts hcr h
    subst hleft
    obtain ⟨S, hSlen, hSev, hSsub, hSpw, hSinit, hScov⟩ :=
      processLevels_spec
        (levelsOf ({ s2 with deferInit := false } : St).depGraph cl)
        { s2 with deferInit := false }
    obtain ⟨dp, hdp, hdpc⟩ := resolveMany_events_calls
      (s.factories.length + 2) (preloadKeys keys s) []
      { s with deferInit := true } rfl
    rw [hp] at hdp
    have hdp2 : s2.events = dp := by
      rw [hdp, show ({ s with deferInit := true } : St).events = s.events
        from rfl, hev]
      simp
    have hpre : ∀ e ∈ s2.events, ∃ q, e = Event.factoryCall q := by
      intro e he
      rw [hdp2] at he
      exact hdpc e he
    have hs4ev : s4.events = s2.events ++ blockEvents S := by
      rw [hs4]
      exact hSev
    refine ⟨?_, ?_, ?_⟩
    · intro x hreach hxc
      rw [hmid] at hreach
      have hxcl : x ∈ cl := reaches_closure hcr x hreach
      have hxlv : x ∈ (levelsOf ({ s2 with deferInit := false } : St).depGraph
          cl).flatten := hcover x hxcl
      have hcache := (processLevels_frame
        (levelsOf ({ s2 with deferInit := false } : St).depGraph cl)
        { s2 with deferInit := false }).2.1
      rw [hs4] at hxc ⊢
      rw [hcache] at hxc
      exact hScov x hxlv hxc
    · intro key dep hdep
      rw [hmid] at hdep
      by_cases hkey : Event.initStart key ∈ s4.events
      · rw [hs4ev] at hkey
        rcases List.mem_append.mp hkey with hkpre | hkblk
        · obtain ⟨q, hq⟩ := hpre _ hkpre
          simp at hq
        · obtain ⟨sj, hsjS, hkeysj⟩ := start_mem_blockEvents.mp hkblk
          obtain ⟨j, hSj⟩ := mem_idx S sj hsjS
          have hjlen : j < S.length := (List.get?_eq_some.mp hSj).1
          have hjlv : j < (levelsOf
              ({ s2 with deferInit := false } : St).depGraph cl).length := by
            rw [← hSlen]
            exact hjlen
          have hlvj := List.get?_eq_get hjlv
          have hkeylv := hSsub j _ sj hlvj hSj key hkeysj
          have hkeycl : key ∈ cl := levelsOf_mem_cl hlvj hkeylv
          have hdepcl : dep ∈ cl := by
            rcases closureGo_closed
              (closureFuel ({ s2 with deferInit := false } : St).depGraph
                (preloadKeys keys s))
              ({ s2 with deferInit := false } : St).depGraph
              (preloadKeys keys s) [] cl hcr key hkeycl with habs | hcl2
            · exact absurd habs (List.not_mem_nil key)
            · exact hcl2 dep hdep
          by_cases hdepe : Event.initEnd dep ∈ s4.events
          · rw [hs4ev] at hdepe
            rcases List.mem_append.mp hdepe with hdpre | hdblk
            · obtain ⟨q, hq⟩ := hpre _ hdpre
              simp at hq
            · obtain ⟨si, hsiS, hdepsi⟩ := end_mem_blockEvents.mp hdblk
              obtain ⟨i, hSi⟩ := mem_idx S si hsiS
              have hilen : i < S.length := (List.get?_eq_some.mp hSi).1
              have hilv : i < (levelsOf
                  ({ s2 with deferInit := false } : St).depGraph
                    cl).length := by
                rw [← hSlen]
                exact hilen
              have hlvi := List.get?_eq_get hilv
              have hdeplvi := hSsub i _ si hlvi hSi dep hdepsi
              have hdtake := levelsOf_deps_earlier hlvj hkeylv hdep hdepcl
              obtain ⟨ltk, hltk, hdepltk⟩ := List.mem_flatten.mp hdtake
              obtain ⟨i2, hi2j, hlvI2⟩ := mem_take_idx _ j ltk hltk
              have hieq : i = i2 := by
                by_contra hne
                exact levelsOf_disjoint hlvi hlvI2 hne hdeplvi hdepltk
              have hij : i < j := hieq ▸ hi2j
              have hblocksplit : blockEvents S =
                  blockEvents (S.take (i+1)) ++ blockEvents (S.drop (i+1)) := by
                rw [← blockEvents_append, List.take_append_drop]
              refine ⟨s2.events ++ blockEvents (S.take (i+1)),
                blockEvents (S.drop (i+1)), ?_, ?_, ?_⟩
              · rw [hs4ev, hblocksplit, List.append_assoc]
              · intro hmem
                rcases List.mem_append.mp hmem with hm | hm
                · obtain ⟨q, hq⟩ := hpre _ hm
                  simp at hq
                · obtain ⟨l2, hl2, hkeyl2⟩ := start_mem_blockEvents.mp hm
                  obtain ⟨j2, hj2, hSj2⟩ := mem_take_idx S (i+1) l2 hl2
                  exact pairwise_not_mem_idx hSpw hSj2 hSj (by omega)
                    hkeyl2 hkeysj
              · intro hmem
                obtain ⟨l2, hl2, hdepl2⟩ := end_mem_blockEvents.mp hmem
                obtain ⟨i3, hi3, hSi3⟩ := mem_drop_idx S (i+1) l2 hl2
                exact pairwise_not_mem_idx hSpw hSi3 hSi (by omega)
                  hdepl2 hdepsi
          · exact ⟨[], s4.events, by simp, List.not_mem_nil _, hdepe⟩
      · exact ⟨s4.events, [], by simp, hkey, List.not_mem_nil _⟩
    · intro lvl hlvl a b ha hb
      have hlv2 : preloadLevels keys s =
          levelsOf ({ s2 with deferInit := false } : St).depGraph cl := by
        unfold preloadLevels preloadClosure
        rw [hmid, hcr]
      rw [hlv2] at hlvl
      obtain ⟨m0, hm0⟩ := mem_idx _ lvl hlvl
      by_cases hae : Event.initStart a ∈ s4.events
      · by_cases hbe : Event.initEnd b ∈ s4.events
        · rw [hs4ev] at hae hbe
          have hablk : Event.initStart a ∈ blockEvents S := by
            rcases List.mem_append.mp hae with hm | hm
            · obtain ⟨q, hq⟩ := hpre _ hm
              simp at hq
            · exact hm
          have hbblk : Event.initEnd b ∈ blockEvents S := by
            rcases List.mem_append.mp hbe with hm | hm
            · obtain ⟨q, hq⟩ := hpre _ hm
              simp at hq
            · exact hm
          obtain ⟨si, hsiS, hasi⟩ := start_mem_blockEvents.mp hablk
          obtain ⟨i, hSi⟩ := mem_idx S si hsiS
          obtain ⟨sj, hsjS, hbsj⟩ := end_mem_blockEvents.mp hbblk
          obtain ⟨j, hSj⟩ := mem_idx S sj hsjS
          have hilen : i < S.length := (List.get?_eq_some.mp hSi).1
          have hjlen : j < S.length := (List.get?_eq_some.mp hSj).1
          have hilv : i < (levelsOf
              ({ s2 with deferInit := false } : St).depGraph cl).length := by
            rw [← hSlen]
            exact hilen
          have hjlv : j < (levelsOf
              ({ s2 with deferInit := false } : St).depGraph cl).length := by
            rw [← hSlen]
            exact hjlen
          have hlvi := List.get?_eq_get hilv
          have hlvj := List.get?_eq_get hjlv
          have halvi := hSsub i _ si hlvi hSi a hasi
          have hblvj := hSsub j _ sj hlvj hSj b hbsj
          have him : i = m0 := by
            by_contra hne
            exact levelsOf_disjoint hlvi hm0 hne halvi ha
          have hjm : j = m0 := by
            by_contra hne
            exact levelsOf_disjoint hlvj hm0 hne hblvj hb
          have hji : j = i := hjm.trans him.symm
          have hsisj : si = sj := by
            rw [hji] at hSj
            rw [hSi] at hSj
            exact Option.some.inj hSj
          have hbsi : b ∈ si := by
            rw [hsisj]
            exact hbsj
          obtain ⟨h2, hg⟩ := List.get?_eq_some.mp hSi
          have hdrop : S.drop i = si :: S.drop (i+1) := by
            rw [List.drop_eq_get_cons h2, hg]
          have hSsplit : S = S.take i ++ si :: S.drop (i+1) := by
            conv_lhs => rw [← List.take_append_drop i S]
            rw [hdrop]
          have hblockeq : blockEvents S = blockEvents (S.take i) ++
              ((si.map Event.initStart ++ si.map Event.initEnd) ++
                blockEvents (S.drop (i+1))) := by
            conv_lhs => rw [hSsplit]
            rw [blockEvents_append, blockEvents_cons]
          refine ⟨s2.events ++ blockEvents (S.take i) ++
              si.map Event.initStart,
            si.map Event.initEnd ++ blockEvents (S.drop (i+1)), ?_, ?_, ?_⟩
          · rw [hs4ev, hblockeq]
            simp [List.append_assoc]
          · intro hmem
            rcases List.mem_append.mp hmem with hm2 | hm2
            · rcases List.mem_append.mp hm2 with hm3 | hm3
              · obtain ⟨q, hq⟩ := hpre _ hm3
                simp at hq
              · obtain ⟨l2, hl2, hbl2⟩ := end_mem_blockEvents.mp hm3
                obtain ⟨j2, hj2, hSj2⟩ := mem_take_idx S i l2 hl2
                exact pairwise_not_mem_idx hSpw hSj2 hSi (by omega) hbl2 hbsi
            · obtain ⟨x, hx, hxe⟩ := List.mem_map.mp hm2
              simp at hxe
          · intro hmem
            rcases List.mem_append.mp hmem with hm2 | hm2
            · obtain ⟨x, hx, hxe⟩ := List.mem_map.mp hm2
              simp at hxe
            · obtain ⟨l2, hl2, hal2⟩ := start_mem_blockEvents.mp hm2
              obtain ⟨i3, hi3, hSi3⟩ := mem_drop_idx S (i+1) l2 hl2
              exact pairwise_not_mem_idx hSpw hSi3 hSi (by omega) hal2 hasi
        · exact ⟨s4.events, [], by simp, hbe, List.not_mem_nil _⟩
      · exact ⟨[], s4.events, by simp, List.not_mem_nil _, hae⟩

/-- C3 witness: preloading only app over the registry where app depends on
db initializes the not-directly-requested db as well, with the completion of
the db hook strictly before the start of the app hook, and level mates
overlapping. -/
theorem preload_topological_init_witness :
    (∀ x, Reaches (preloadMid (some ["app"]) (exSt exC3Reg)).depGraph
        (preloadKeys (some ["app"]) (exSt exC3Reg)) x →
      x ∈ akeys (preload (some ["app"]) (exSt exC3Reg)).2.cache →
      x ∈ (preload (some ["app"]) (exSt exC3Reg)).2.initState) ∧
    (∀ key dep, dep ∈ (alookup key (preloadMid (some ["app"])
        (exSt exC3Reg)).depGraph).getD [] →
      allBefore (preload (some ["app"]) (exSt exC3Reg)).2.events
        (Event.initEnd dep) (Event.initStart key)) ∧
    (∀ lvl, lvl ∈ preloadLevels (some ["app"]) (exSt exC3Reg) →
      ∀ a b, a ∈ lvl → b ∈ lvl →
      allBefore (preload (some ["app"]) (exSt exC3Reg)).2.events
        (Event.initStart a) (Event.initEnd b)) :=
  preload_topological_init rfl (by decide)

end Inwire
